import Mathlib

/-!
Shallow embedding of the sharded object pool implemented in `object_pool.c`
(the multi-sub-pool variant with a backpressure queue). The model keeps the
observable sequential state of a pool: per-shard slot arrays (`objects[]` and
`used[]`), per-shard counters, the pool-level counters, and the backpressure
queue. Mutexes and the timing statistics (`contention_attempts`,
`total_contention_time_ns`, `get_hrtime`) are concurrency/timing instrumentation
and are not modelled; every operation here is the body of the corresponding C
function executed atomically. Object payloads are abstract `Nat` states acted on
by the caller-supplied lifecycle hooks; heap pointers are identified by their
`(shard, slot)` coordinates, which is exactly the information the packed
back-pointer metadata stores. Allocation outcomes of `malloc`/`realloc`/custom
`alloc` are oracles passed to the operations that can fail on allocation.
-/

namespace ObjectPool

/-- Error kinds reported to the error sink, from `object_pool.h`
(`POOL_ERROR_*`). `POOL_ERROR_NONE` is never reported and is omitted.
`insufficientUnused` is `POOL_ERROR_INSUFFICIENT_UNUSED`, called
`InsufficientFree` by the specification. -/
inductive ErrorKind where
  | invalidPool
  | invalidObject
  | exhausted
  | allocFailed
  | invalidSize
  | insufficientUnused
  | queueFull
deriving DecidableEq

/-- One slot of a sub-pool: the pair `objects[j]` / `used[j]`. The payload is an
abstract `Nat` state (what the lifecycle hooks see); `obj = none` models a NULL
entry in the `objects` array. -/
structure Slot where
  obj : Option Nat
  used : Bool
deriving DecidableEq

/-- Sub-pool (`struct sub_pool`); `pool_size` is `slots.length`. -/
structure SubPool where
  slots : List Slot
  used_count : Nat
  max_used : Nat
  acquire_count : Nat
  release_count : Nat
deriving DecidableEq

/-- Parked acquire request (`acquire_request_t`). `hasCallback` models
`callback != NULL`; `ctx` identifies the request (callback plus context). -/
structure Req where
  hasCallback : Bool
  ctx : Nat
deriving DecidableEq

/-- Caller-supplied lifecycle hooks (`object_pool_allocator_t`) acting on the
abstract payload state. `alloc` itself is modelled by the payload oracle passed
to `pool_create` and `pool_grow`; `free`, `on_destroy` leave no payload behind
and need no model function. -/
structure Allocator where
  validate : Nat → Bool
  reset : Nat → Nat
  on_create : Nat → Nat
  on_reuse : Nat → Nat

/-- Pool state (`struct object_pool`). `queue` is
`request_queue[0 .. queue_size)`, so `queue_size` is `queue.length`. -/
structure PoolState where
  sub_pools : List SubPool
  total_objects_allocated : Nat
  grow_count : Nat
  shrink_count : Nat
  queue : List Req
  queue_capacity : Nat
  queue_max_size : Nat
  queue_grow_count : Nat
  max_used : Nat
deriving DecidableEq

/-- DEFAULT_QUEUE_CAPACITY from `object_pool.h`. -/
def DEFAULT_QUEUE_CAPACITY : Nat := 32

/-- Largest admissible sub-pool size, `0xFFFFFFFFFFFF` (48-bit slot index field
of the packed back-pointer). -/
def SUB_POOL_SIZE_LIMIT : Nat := 0xFFFFFFFFFFFF

/-- Result of `pool_used_count`: sum of the per-shard `used_count` fields. -/
def pool_used_count (p : PoolState) : Nat :=
  (p.sub_pools.map (fun sub => sub.used_count)).sum

/-- Result of `pool_capacity`: sum of the per-shard `pool_size` fields. -/
def pool_capacity (p : PoolState) : Nat :=
  (p.sub_pools.map (fun sub => sub.slots.length)).sum

/-- Sum of shard sizes of a shard list (`pool_capacity` before packing the
list into a pool). -/
def totalLen (subs : List SubPool) : Nat :=
  (subs.map (fun sub => sub.slots.length)).sum

/-- Statistics snapshot (`object_pool_stats_t`), without the timing fields. -/
structure Stats where
  max_used : Nat
  acquire_count : Nat
  release_count : Nat
  total_objects_allocated : Nat
  grow_count : Nat
  shrink_count : Nat
  queue_max_size : Nat
  queue_grow_count : Nat
deriving DecidableEq

/-- Body of `pool_stats`: per-shard sums plus copies of the pool-level
counters. -/
def pool_stats (p : PoolState) : Stats :=
  { max_used := p.max_used
    acquire_count := (p.sub_pools.map (fun sub => sub.acquire_count)).sum
    release_count := (p.sub_pools.map (fun sub => sub.release_count)).sum
    total_objects_allocated := p.total_objects_allocated
    grow_count := p.grow_count
    shrink_count := p.shrink_count
    queue_max_size := p.queue_max_size
    queue_grow_count := p.queue_grow_count }

/-- State update of `next_random`: the 64-bit LCG
`state = state * 6364136223846793005 + 1442695040888963407` with wrap-around. -/
def next_random_state (s : Nat) : Nat :=
  (s * 6364136223846793005 + 1442695040888963407) % 2 ^ 64

/-- Return value of `next_random`: `(uint32_t)(state >> 32)` of the updated
state, that is its top 32 bits. -/
def next_random_out (s : Nat) : Nat :=
  next_random_state s >>> 32

/-- Balanced-partition share of shard `i` when distributing over shards:
`base + (i < rem ? 1 : 0)`, as computed inside `pool_create`, `pool_grow` and
`pool_shrink`. -/
def share (base rem i : Nat) : Nat :=
  base + (if i < rem then 1 else 0)

/-- Per-shard slot count chosen by `pool_create`: the balanced share with the
at-least-one bump (`if pool_size == 0 && pool_size > 0 then 1`). -/
def subSize (pool_size sub_pool_count i : Nat) : Nat :=
  let s := share (pool_size / sub_pool_count) (pool_size % sub_pool_count) i
  if s = 0 ∧ 0 < pool_size then 1 else s

/-- Freshly constructed slot: `alloc` yields the payload `init j`, then `reset`
and `on_create` run on it, and `used[j]` is cleared (creation loop of
`pool_create` and of `pool_grow`). -/
def newSlot (A : Allocator) (init : Nat → Nat) (j : Nat) : Slot :=
  { obj := some (A.on_create (A.reset (init j))), used := false }

/-- Newly constructed slots for indices `start .. start + add - 1`. -/
def newSlots (A : Allocator) (init : Nat → Nat) (start add : Nat) : List Slot :=
  (List.range add).map (fun k => newSlot A init (start + k))

/-- Freshly initialised sub-pool of size `n` with all counters zero. -/
def mkSubPool (A : Allocator) (init : Nat → Nat) (n : Nat) : SubPool :=
  { slots := newSlots A init 0 n
    used_count := 0
    max_used := 0
    acquire_count := 0
    release_count := 0 }

/-- Body of `pool_create`. `mkObj i j` is the payload produced by
`allocator.alloc` for slot `j` of shard `i`. Heap-exhaustion failures of the
internal `malloc` calls and of `alloc` are not modelled; the modelled failure
cases are the argument checks, each reporting `InvalidSize` once. -/
def pool_create (A : Allocator) (mkObj : Nat → Nat → Nat)
    (pool_size sub_pool_count : Nat) : Option PoolState × List ErrorKind :=
  if pool_size = 0 ∨ sub_pool_count = 0 then (none, [.invalidSize])
  else if 0xFFFF < sub_pool_count then (none, [.invalidSize])
  else if (List.range sub_pool_count).any
      (fun i => decide (SUB_POOL_SIZE_LIMIT < subSize pool_size sub_pool_count i)) then
    (none, [.invalidSize])
  else
    (some { sub_pools := (List.range sub_pool_count).map
              (fun i => mkSubPool A (mkObj i) (subSize pool_size sub_pool_count i))
            total_objects_allocated := pool_size
            grow_count := 0
            shrink_count := 0
            queue := []
            queue_capacity := DEFAULT_QUEUE_CAPACITY
            queue_max_size := 0
            queue_grow_count := 0
            max_used := 0 }, [])

/-- Specification-side test: the inner scan of `pool_acquire` may hand out slot
`s` exactly when the used flag is clear, the object pointer is non-null, and
`validate` passes. -/
def slotFreeValid (A : Allocator) (s : Slot) : Bool :=
  !s.used && (match s.obj with
    | none => false
    | some payl => A.validate payl)

/-- Inner scan of `pool_acquire` over one shard: index and payload of the first
free slot that passes validation, together with the `InvalidObject` errors
reported (and skipped over) for free slots that are null or fail validation
before it. -/
def findFreeValid (A : Allocator) : List Slot → Option (Nat × Nat) × List ErrorKind
  | [] => (none, [])
  | s :: rest =>
    if s.used then
      let r := findFreeValid A rest
      (r.1.map (fun x => (x.1 + 1, x.2)), r.2)
    else
      match s.obj with
      | none =>
        let r := findFreeValid A rest
        (r.1.map (fun x => (x.1 + 1, x.2)), .invalidObject :: r.2)
      | some payl =>
        if A.validate payl then (some (0, payl), [])
        else
          let r := findFreeValid A rest
          (r.1.map (fun x => (x.1 + 1, x.2)), .invalidObject :: r.2)

/-- One shard attempt inside `pool_acquire`: guard `used_count < pool_size`,
then scan. On success the slot is marked used, `used_count`, `max_used` and
`acquire_count` update, and the payload goes through `reset` then `on_reuse`. -/
def tryShard (A : Allocator) (sub : SubPool) : Option (Nat × SubPool) × List ErrorKind :=
  if sub.used_count < sub.slots.length then
    match findFreeValid A sub.slots with
    | (some (i, payl), errs) =>
      let uc := sub.used_count + 1
      (some (i,
        { sub with
          slots := sub.slots.set i { obj := some (A.on_reuse (A.reset payl)), used := true }
          used_count := uc
          max_used := if uc > sub.max_used then uc else sub.max_used
          acquire_count := sub.acquire_count + 1 }), errs)
    | (none, errs) => (none, errs)
  else (none, [])

/-- Probe order of `pool_acquire`: `(start_idx + attempt) % sub_pool_count` for
`attempt = 0 .. sub_pool_count - 1`, where `start_idx = rand % sub_pool_count`
and `rand` is the thread-local PRNG draw. -/
def probeOrder (count rand : Nat) : List Nat :=
  (List.range count).map (fun attempt => (rand % count + attempt) % count)

/-- Outer loop of `pool_acquire` over the probe order; accumulates the errors of
shards that fail to yield and stops at the first success. The `none` lookup arm
is unreachable because every probe index is below the shard count. -/
def tryShards (A : Allocator) (subs : List SubPool) :
    List Nat → Option (Nat × Nat) × List SubPool × List ErrorKind
  | [] => (none, subs, [])
  | idx :: rest =>
    match subs[idx]? with
    | none => (none, subs, [])
    | some sub =>
      match tryShard A sub with
      | (some (i, sub1), errs) => (some (idx, i), subs.set idx sub1, errs)
      | (none, errs) =>
        let r := tryShards A subs rest
        (r.1, r.2.1, errs ++ r.2.2)

/-- Result of one `pool_acquire` call: the acquired slot, the parked indication
(NULL returned after enqueueing the callback), or plain failure (NULL with an
error report). -/
inductive AcquireResult where
  | acquired (shard slot : Nat)
  | parked
  | failed
deriving DecidableEq

/-- Body of `pool_grow_queue`. `growOk` models whether the `realloc` of the
request queue succeeds; on success capacity extends and the growth counter
advances (zero-filling the new tail has no observable effect here because only
`queue[0 .. queue_size)` is ever read). -/
def pool_grow_queue (p : PoolState) (additional_capacity : Nat) (growOk : Bool) :
    Bool × PoolState × List ErrorKind :=
  if additional_capacity = 0 then (false, p, [.invalidSize])
  else if growOk then
    (true, { p with
      queue_capacity := p.queue_capacity + additional_capacity
      queue_grow_count := p.queue_grow_count + 1 }, [])
  else (false, p, [.allocFailed])

/-- Body of `pool_acquire`. `rand` is the `next_random` draw (the thread-local
PRNG state lives outside the pool); `hasCb`/`ctx` model the callback and context
arguments; `growOk` models the `realloc` outcome inside the queue-doubling
attempt. The NULL-pool branch is not modelled. After a success the global
`max_used` is recomputed from a fresh `pool_used_count` scan. -/
def pool_acquire (A : Allocator) (p : PoolState) (rand : Nat) (hasCb : Bool)
    (ctx : Nat) (growOk : Bool) : AcquireResult × PoolState × List ErrorKind :=
  match tryShards A p.sub_pools (probeOrder p.sub_pools.length rand) with
  | (some (si, i), subs1, errs) =>
    let p1 := { p with sub_pools := subs1 }
    let cur := pool_used_count p1
    (.acquired si i,
     { p1 with max_used := if cur > p1.max_used then cur else p1.max_used }, errs)
  | (none, _, errs) =>
    if hasCb ∧ p.queue.length < p.queue_capacity then
      let q := p.queue ++ [{ hasCallback := hasCb, ctx := ctx }]
      (.parked, { p with
        queue := q
        queue_max_size := if q.length > p.queue_max_size then q.length else p.queue_max_size },
       errs)
    else if hasCb then
      match pool_grow_queue p p.queue_capacity growOk with
      | (true, p2, errs2) =>
        let q := p2.queue ++ [{ hasCallback := hasCb, ctx := ctx }]
        (.parked, { p2 with
          queue := q
          queue_max_size := if q.length > p2.queue_max_size then q.length else p2.queue_max_size },
         errs ++ errs2)
      | (false, p2, errs2) => (.failed, p2, errs ++ errs2 ++ [.queueFull])
    else (.failed, p, errs ++ [.exhausted])

/-- Body of `pool_release`. The object argument is identified by its shard index
`i` and slot index `j`, the coordinates the membership scan and the metadata
check recover from the pointer in the source; a pair that does not name a live
slot corresponds to a pointer that is not (or no longer) in the pool. After the
busy flag is cleared the head of a non-empty backpressure queue is popped, and
the hand-off happens only if the popped request has a callback and the payload
revalidates after its reset. -/
def pool_release (A : Allocator) (p : PoolState) (i j : Nat) :
    Bool × PoolState × List ErrorKind :=
  match p.sub_pools[i]? with
  | none => (false, p, [.invalidObject])
  | some sub =>
    match sub.slots[j]? with
    | none => (false, p, [.invalidObject])
    | some slot =>
      match slot.obj with
      | none => (false, p, [.invalidObject])
      | some payl =>
        if A.validate payl = false then (false, p, [.invalidObject])
        else if slot.used then
          let payl1 := A.reset payl
          let sub1 := { sub with
            slots := sub.slots.set j { obj := some payl1, used := false }
            used_count := sub.used_count - 1
            release_count := sub.release_count + 1 }
          match p.queue with
          | [] => (true, { p with sub_pools := p.sub_pools.set i sub1 }, [])
          | req :: qrest =>
            if req.hasCallback ∧ A.validate payl1 then
              let sub2 := { sub1 with
                slots := sub1.slots.set j { obj := some (A.on_reuse payl1), used := true }
                used_count := sub1.used_count + 1
                acquire_count := sub1.acquire_count + 1 }
              let p1 := { p with sub_pools := p.sub_pools.set i sub2, queue := qrest }
              let cur := pool_used_count p1
              (true, { p1 with max_used := if cur > p1.max_used then cur else p1.max_used }, [])
            else (true, { p with sub_pools := p.sub_pools.set i sub1, queue := qrest }, [])
        else (false, p, [.invalidObject])

/-- Single-shard growth inside `pool_grow`: the slot arrays extend by `add`
freshly constructed slots whose back-pointers carry the new indices. -/
def growSub (A : Allocator) (init : Nat → Nat) (sub : SubPool) (add : Nat) : SubPool :=
  { sub with slots := sub.slots ++ newSlots A init sub.slots.length add }

/-- Per-shard loop of `pool_grow`. `shardOk i` models whether the `realloc` of
the arrays and every object allocation succeed in shard `i`; a shard that fails
keeps its old logical size (`pool_size` is only advanced after the whole shard
grew) and the loop stops, leaving earlier shards grown. -/
def growLoop (A : Allocator) (mkObj : Nat → Nat → Nat) (shardOk : Nat → Bool) :
    List SubPool → Nat → Nat → Nat → List SubPool × Bool × List ErrorKind
  | [], _, _, _ => ([], true, [])
  | sub :: rest, base, rem, i =>
    let add := share base rem i
    if add = 0 then
      let r := growLoop A mkObj shardOk rest base rem (i + 1)
      (sub :: r.1, r.2)
    else if SUB_POOL_SIZE_LIMIT < sub.slots.length + add then
      (sub :: rest, false, [.invalidSize])
    else if shardOk i then
      let r := growLoop A mkObj shardOk rest base rem (i + 1)
      (growSub A (mkObj i) sub add :: r.1, r.2)
    else (sub :: rest, false, [.allocFailed])

/-- Body of `pool_grow`: balanced partition of `additional_size` over the
shards, growing each in turn; the pool-level counters advance only after every
shard grew. -/
def pool_grow (A : Allocator) (mkObj : Nat → Nat → Nat) (shardOk : Nat → Bool)
    (p : PoolState) (additional_size : Nat) : Bool × PoolState × List ErrorKind :=
  if additional_size = 0 then (false, p, [.invalidSize])
  else
    let r := growLoop A mkObj shardOk p.sub_pools
      (additional_size / p.sub_pools.length) (additional_size % p.sub_pools.length) 0
    if r.2.1 then
      (true, { p with
        sub_pools := r.1
        total_objects_allocated := p.total_objects_allocated + additional_size
        grow_count := p.grow_count + 1 }, r.2.2)
    else (false, { p with sub_pools := r.1 }, r.2.2)

/-- Helper for `freeRunLen`: length of the free prefix of a slot list. -/
def freeRunAux : List Slot → Nat
  | [] => 0
  | s :: rest => if s.used then 0 else freeRunAux rest + 1

/-- Length of the contiguous run of free slots at the high end of the slot
array. The counting loop of `pool_shrink` walks from the high end, stops at the
first busy slot, and also stops once `red_size` free slots are seen, so its
`unused_count` is `min (freeRunLen slots) red_size`. -/
def freeRunLen (slots : List Slot) : Nat :=
  freeRunAux slots.reverse

/-- Successful per-shard shrink: destroy the top `red` slots, truncate the
arrays, and clamp the local peak to the new size. -/
def shrinkSub (sub : SubPool) (red : Nat) : SubPool :=
  let newSize := sub.slots.length - red
  { sub with
    slots := sub.slots.take newSize
    max_used := if sub.max_used > newSize then newSize else sub.max_used }

/-- Shard state left behind when the shrinking `realloc` fails: the top `red`
objects are already destroyed and their array entries nulled, but `pool_size`
is not reduced. -/
def destroyTail (sub : SubPool) (red : Nat) : SubPool :=
  let newSize := sub.slots.length - red
  { sub with slots :=
      sub.slots.take newSize ++ (sub.slots.drop newSize).map (fun s => { s with obj := none }) }

/-- Per-shard loop of `pool_shrink`. Exact mirror of the C loop: skip shards
with a zero share, fail with `InsufficientFree` when the contiguous free tail is
shorter than the share, fail with `AllocFailed` when the shrinking `realloc`
fails (oracle `reallocOk`), otherwise truncate and continue. A failure stops
the loop, so earlier shards stay shrunk and later shards are untouched. -/
def shrinkLoop (reallocOk : Nat → Bool) :
    List SubPool → Nat → Nat → Nat → List SubPool × Bool × List ErrorKind
  | [], _, _, _ => ([], true, [])
  | sub :: rest, base, rem, i =>
    let red := share base rem i
    if red = 0 then
      let r := shrinkLoop reallocOk rest base rem (i + 1)
      (sub :: r.1, r.2)
    else if min (freeRunLen sub.slots) red < red then
      (sub :: rest, false, [.insufficientUnused])
    else if reallocOk i then
      let r := shrinkLoop reallocOk rest base rem (i + 1)
      (shrinkSub sub red :: r.1, r.2)
    else (destroyTail sub red :: rest, false, [.allocFailed])

/-- Body of `pool_shrink`: argument check against the current capacity, then the
per-shard loop; on full success the shrink counter advances and
`total_objects_allocated` is reduced by `reduce_size` (the line marked
`Fix: Update total_objects_allocated` in the source). -/
def pool_shrink (reallocOk : Nat → Bool) (p : PoolState) (reduce_size : Nat) :
    Bool × PoolState × List ErrorKind :=
  if reduce_size = 0 ∨ pool_capacity p < reduce_size then (false, p, [.invalidSize])
  else
    let r := shrinkLoop reallocOk p.sub_pools
      (reduce_size / p.sub_pools.length) (reduce_size % p.sub_pools.length) 0
    if r.2.1 then
      (true, { p with
        sub_pools := r.1
        shrink_count := p.shrink_count + 1
        total_objects_allocated := p.total_objects_allocated - reduce_size }, r.2.2)
    else (false, { p with sub_pools := r.1 }, r.2.2)

/-- One pool operation together with its external inputs: the PRNG draw, the
callback arguments, and the allocation oracles. -/
inductive Op where
  | acquire (rand : Nat) (hasCb : Bool) (ctx : Nat) (growOk : Bool)
  | release (i j : Nat)
  | grow (n : Nat) (mkObj : Nat → Nat → Nat) (shardOk : Nat → Bool)
  | shrink (k : Nat) (reallocOk : Nat → Bool)
  | growQueue (d : Nat) (growOk : Bool)

/-- State reached after one operation (the new pool state of the corresponding
C call). -/
def step (A : Allocator) (p : PoolState) : Op → PoolState
  | .acquire rand hasCb ctx growOk => (pool_acquire A p rand hasCb ctx growOk).2.1
  | .release i j => (pool_release A p i j).2.1
  | .grow n mkObj shardOk => (pool_grow A mkObj shardOk p n).2.1
  | .shrink k reallocOk => (pool_shrink reallocOk p k).2.1
  | .growQueue d growOk => (pool_grow_queue p d growOk).2.1

/-- State reached after a sequence of operations. -/
def run (A : Allocator) (p : PoolState) : List Op → PoolState
  | [] => p
  | op :: ops => run A (step A p op) ops

/-- Test selecting shrink operations. -/
def Op.isShrink : Op → Bool
  | .shrink _ _ => true
  | _ => false

/-- Busy-accounting invariant of one shard: `used_count` equals the number of
slots whose busy flag is set. -/
def subOk (sub : SubPool) : Prop :=
  sub.used_count = sub.slots.countP (fun s => s.used)

instance (sub : SubPool) : Decidable (subOk sub) :=
  inferInstanceAs (Decidable (sub.used_count = sub.slots.countP (fun s => s.used)))

/-- Busy-accounting invariant of the whole pool. -/
def poolOk (p : PoolState) : Prop :=
  ∀ sub ∈ p.sub_pools, subOk sub

/-- Specification-side test: the shard holds at least one free slot passing
validation. -/
def shardHasFreeValid (A : Allocator) (sub : SubPool) : Bool :=
  sub.slots.any (fun s => slotFreeValid A s)

/-- Identity lifecycle hooks with always-true validation. -/
def idAlloc : Allocator :=
  { validate := fun _ => true, reset := id, on_create := id, on_reuse := id }

/-- Hooks whose reset advances the payload and whose validation accepts
payloads below 3: after creation the payload is 1, after a lease 2, after the
reset inside a release 3, so validation passes at the lease and at release
entry but fails at the hand-off revalidation. -/
def bumpAlloc : Allocator :=
  { validate := fun payl => decide (payl < 3)
    reset := fun payl => payl + 1
    on_create := id
    on_reuse := id }

/-- Hooks that reject every payload. -/
def rejectAlloc : Allocator :=
  { validate := fun _ => false, reset := id, on_create := id, on_reuse := id }

/-- Payload oracle handing out zero-initialised payloads. -/
def zeroObj : Nat → Nat → Nat := fun _ _ => 0

/-- Fallback pool used only to totalise extraction from `pool_create`. -/
def emptyPool : PoolState :=
  { sub_pools := []
    total_objects_allocated := 0
    grow_count := 0
    shrink_count := 0
    queue := []
    queue_capacity := 0
    queue_max_size := 0
    queue_grow_count := 0
    max_used := 0 }

/-- Pool extracted from a create result. -/
def createdPool (r : Option PoolState × List ErrorKind) : PoolState :=
  match r.1 with
  | some p => p
  | none => emptyPool

/-- Four objects over two shards with identity hooks. -/
def pool42 : PoolState := createdPool (pool_create idAlloc zeroObj 4 2)

/-- pool42 after two leases that both land in shard 1 (PRNG draw 1), leaving
shard 1 fully busy and shard 0 fully free. -/
def pool42Busy1 : PoolState :=
  run idAlloc pool42 [.acquire 1 false 0 false, .acquire 1 false 0 false]

/-- One-shard one-slot pool with the bumping hooks, its slot leased and one
request (context 7) parked. -/
def poolHandoff : PoolState :=
  run bumpAlloc (createdPool (pool_create bumpAlloc zeroObj 1 1))
    [.acquire 0 false 0 false, .acquire 0 true 7 false]

/-- One-shard one-slot pool whose single free slot fails validation. -/
def poolInvalid : PoolState := createdPool (pool_create rejectAlloc zeroObj 1 1)

/-- Two objects over four shards: fewer objects than shards. -/
def pool24 : PoolState := createdPool (pool_create idAlloc zeroObj 2 4)

/-- Setting a free slot to a busy one raises the busy count by one. -/
theorem countP_set_true {slots : List Slot} {i : Nat} {s : Slot} (hs : slots[i]? = some s)
    (hu : s.used = false) (t : Slot) (ht : t.used = true) :
    (slots.set i t).countP (fun x => x.used) = slots.countP (fun x => x.used) + 1 := by
  obtain ⟨hlt, hget⟩ := List.getElem?_eq_some_iff.mp hs
  rw [List.countP_set _ _ _ _ hlt, hget, hu, ht]
  simp

/-- Setting a busy slot to a free one lowers the busy count by one. -/
theorem countP_set_false {slots : List Slot} {i : Nat} {s : Slot} (hs : slots[i]? = some s)
    (hu : s.used = true) (t : Slot) (ht : t.used = false) :
    (slots.set i t).countP (fun x => x.used) = slots.countP (fun x => x.used) - 1 := by
  obtain ⟨hlt, hget⟩ := List.getElem?_eq_some_iff.mp hs
  rw [List.countP_set _ _ _ _ hlt, hget, hu, ht]
  simp

/-- A busy slot forces a positive busy count. -/
theorem countP_pos_of_used {slots : List Slot} {i : Nat} {s : Slot} (hs : slots[i]? = some s)
    (hu : s.used = true) : 1 ≤ slots.countP (fun x => x.used) := by
  obtain ⟨hlt, hget⟩ := List.getElem?_eq_some_iff.mp hs
  have h := List.boole_getElem_le_countP (fun x => x.used) slots i hlt
  rw [hget, hu] at h
  simpa using h

/-- Decomposition of a positive free-and-valid test. -/
theorem slotFreeValid_true {A : Allocator} {s : Slot} (h : slotFreeValid A s = true) :
    ∃ payl, s.used = false ∧ s.obj = some payl ∧ A.validate payl = true := by
  rcases s with ⟨_ | payl0, sused⟩ <;> cases sused <;>
    simp_all [slotFreeValid]

/-- The scan skips a head slot that is busy, null or invalid, shifting the
indices of the tail scan by one. -/
theorem findFreeValid_cons_skip {A : Allocator} {s : Slot} {rest : List Slot}
    (hs : slotFreeValid A s = false) :
    (findFreeValid A (s :: rest)).1 =
      (findFreeValid A rest).1.map (fun x => (x.1 + 1, x.2)) := by
  rcases s with ⟨_ | payl0, sused⟩ <;> cases sused <;>
    simp [slotFreeValid] at hs <;> simp [findFreeValid, hs]

/-- The scan stops at a free head slot whose payload validates. -/
theorem findFreeValid_cons_hit {A : Allocator} {s : Slot} {rest : List Slot} {payl : Nat}
    (hu : s.used = false) (hobj : s.obj = some payl) (hv : A.validate payl = true) :
    (findFreeValid A (s :: rest)).1 = some (0, payl) := by
  rcases s with ⟨sobj, sused⟩
  simp only at hu hobj
  subst hu hobj
  simp [findFreeValid, hv]

/-- Characterisation of a successful inner scan: the returned index holds the
first free slot passing validation, and every earlier slot is busy, null or
invalid. -/
theorem findFreeValid_some {A : Allocator} :
    ∀ {slots : List Slot} {i payl : Nat},
      (findFreeValid A slots).1 = some (i, payl) →
      ∃ s, slots[i]? = some s ∧ s.used = false ∧ s.obj = some payl ∧ A.validate payl = true ∧
        ∀ i' s', i' < i → slots[i']? = some s' → slotFreeValid A s' = false := by
  intro slots
  induction slots with
  | nil => intro i payl h; simp [findFreeValid] at h
  | cons s rest ih =>
    intro i payl h
    by_cases hsfv : slotFreeValid A s = true
    · obtain ⟨payl0, hu, hobj, hv⟩ := slotFreeValid_true hsfv
      rw [findFreeValid_cons_hit hu hobj hv] at h
      injection h with h2
      injection h2 with hi hp
      subst hi hp
      exact ⟨s, by simp, hu, hobj, hv, by omega⟩
    · have hs : slotFreeValid A s = false := by simpa using hsfv
      rw [findFreeValid_cons_skip hs] at h
      rcases hmap : (findFreeValid A rest).1 with _ | ⟨i0, p0⟩
      · rw [hmap] at h; simp at h
      · rw [hmap] at h
        simp only [Option.map_some'] at h
        injection h with h2
        injection h2 with hi hp
        subst hi hp
        obtain ⟨s0, hs0, hu0, hobj0, hval0, hmin0⟩ := ih hmap
        refine ⟨s0, by simpa using hs0, hu0, hobj0, hval0, ?_⟩
        intro i' s' hi' hgs'
        cases i' with
        | zero =>
          simp only [List.getElem?_cons_zero, Option.some.injEq] at hgs'
          subst hgs'
          exact hs
        | succ i2 =>
          exact hmin0 i2 s' (by omega) (by simpa using hgs')

/-- The inner scan comes back empty exactly when no slot is free, non-null and
valid. -/
theorem findFreeValid_none_iff {A : Allocator} :
    ∀ {slots : List Slot},
      (findFreeValid A slots).1 = none ↔ ∀ s ∈ slots, slotFreeValid A s = false := by
  intro slots
  induction slots with
  | nil => simp [findFreeValid]
  | cons s rest ih =>
    by_cases hsfv : slotFreeValid A s = true
    · obtain ⟨payl0, hu, hobj, hv⟩ := slotFreeValid_true hsfv
      rw [findFreeValid_cons_hit hu hobj hv]
      constructor
      · intro h; simp at h
      · intro h
        exact absurd (h s (by simp)) (by simp [hsfv])
    · have hs : slotFreeValid A s = false := by simpa using hsfv
      rw [findFreeValid_cons_skip hs]
      simp only [Option.map_eq_none', List.mem_cons]
      constructor
      · intro h x hx
        rcases hx with rfl | hx
        · exact hs
        · exact ih.mp h x hx
      · intro h
        exact ih.mpr (fun x hx => h x (Or.inr hx))

/-- Membership extracted from an indexed lookup. -/
theorem mem_of_getElem? {α : Type} {l : List α} {i : Nat} {a : α} (h : l[i]? = some a) :
    a ∈ l := by
  obtain ⟨hlt, hgt⟩ := List.getElem?_eq_some_iff.mp h
  exact hgt ▸ List.getElem_mem hlt

/-- A successful shard attempt returns the index of the first free valid slot
and the shard updated exactly as the acquire fast path writes it. -/
theorem tryShard_some {A : Allocator} {sub : SubPool} {i : Nat} {sub2 : SubPool}
    {errs : List ErrorKind} (h : tryShard A sub = (some (i, sub2), errs)) :
    ∃ payl, (findFreeValid A sub.slots).1 = some (i, payl) ∧
      sub2 = { sub with
        slots := sub.slots.set i { obj := some (A.on_reuse (A.reset payl)), used := true }
        used_count := sub.used_count + 1
        max_used := if sub.used_count + 1 > sub.max_used then sub.used_count + 1
          else sub.max_used
        acquire_count := sub.acquire_count + 1 } := by
  unfold tryShard at h
  rcases hscan : findFreeValid A sub.slots with ⟨r1, e⟩
  rw [hscan] at h
  by_cases hg : sub.used_count < sub.slots.length
  · rw [if_pos hg] at h
    rcases r1 with _ | ⟨i0, p0⟩
    · simp at h
    · simp only at h
      injection h with h1 h2
      injection h1 with h3
      injection h3 with hi hsub
      subst hi
      exact ⟨p0, rfl, hsub.symm⟩
  · rw [if_neg hg] at h
    simp at h

/-- A shard without a free valid slot yields nothing. -/
theorem tryShard_none {A : Allocator} {sub : SubPool}
    (h : shardHasFreeValid A sub = false) : (tryShard A sub).1 = none := by
  have hall : ∀ s ∈ sub.slots, slotFreeValid A s = false := by
    intro s hs
    have h2 := List.any_eq_false.mp h s hs
    simpa using h2
  unfold tryShard
  split
  · rcases hr : findFreeValid A sub.slots with ⟨r1, e⟩
    rcases r1 with _ | ⟨i0, p0⟩
    · simp
    · have hsome : (findFreeValid A sub.slots).1 = some (i0, p0) := by rw [hr]
      obtain ⟨s, hs, hu, hobj, hv, _⟩ := findFreeValid_some hsome
      have hsv : slotFreeValid A s = true := by
        rcases s with ⟨so, su⟩
        simp only at hu hobj
        subst hu hobj
        simp [slotFreeValid, hv]
      rw [hall s (mem_of_getElem? hs)] at hsv
      simp at hsv
  · rfl

/-- Under busy accounting, a shard holding a free valid slot always yields. -/
theorem tryShard_of_hasFree {A : Allocator} {sub : SubPool} (hok : subOk sub)
    (h : shardHasFreeValid A sub = true) :
    ∃ i sub2 errs, tryShard A sub = (some (i, sub2), errs) := by
  obtain ⟨s, hmem, hsv⟩ := List.any_eq_true.mp h
  obtain ⟨payl, hu, _, _⟩ := slotFreeValid_true hsv
  have hcount : sub.slots.countP (fun x => x.used) < sub.slots.length := by
    have hle0 : sub.slots.countP (fun x => x.used) ≤ sub.slots.length :=
      List.countP_le_length (fun x : Slot => x.used)
    rcases Nat.eq_or_lt_of_le hle0 with heq | hlt
    · have := List.countP_eq_length.mp heq s hmem
      rw [hu] at this
      simp at this
    · exact hlt
  have hguard : sub.used_count < sub.slots.length := by rw [hok]; exact hcount
  have hne : (findFreeValid A sub.slots).1 ≠ none := by
    intro hn
    have := findFreeValid_none_iff.mp hn s hmem
    rw [hsv] at this
    simp at this
  rcases hr : findFreeValid A sub.slots with ⟨r1, e⟩
  rcases r1 with _ | ⟨i0, p0⟩
  · rw [hr] at hne; simp at hne
  · refine ⟨i0, { sub with
      slots := sub.slots.set i0 { obj := some (A.on_reuse (A.reset p0)), used := true }
      used_count := sub.used_count + 1
      max_used := if sub.used_count + 1 > sub.max_used then sub.used_count + 1
        else sub.max_used
      acquire_count := sub.acquire_count + 1 }, e, ?_⟩
    unfold tryShard
    rw [hr, if_pos hguard]

/-- Busy accounting survives a successful shard attempt. -/
theorem tryShard_subOk {A : Allocator} {sub : SubPool} {i : Nat} {sub2 : SubPool}
    {errs : List ErrorKind} (hok : subOk sub)
    (h : tryShard A sub = (some (i, sub2), errs)) : subOk sub2 := by
  obtain ⟨payl, hscan, rfl⟩ := tryShard_some h
  obtain ⟨s, hs, hu, _, _, _⟩ := findFreeValid_some hscan
  show sub.used_count + 1 = _
  rw [countP_set_true hs hu _ rfl, hok]

/-- Busy accounting survives the whole probe loop. -/
theorem tryShards_subOk {A : Allocator} :
    ∀ {order : List Nat} {subs : List SubPool},
      (∀ sub ∈ subs, subOk sub) →
      ∀ sub ∈ (tryShards A subs order).2.1, subOk sub := by
  intro order
  induction order with
  | nil => intro subs h; simpa [tryShards] using h
  | cons idx rest ih =>
    intro subs h sub hm
    unfold tryShards at hm
    rcases hidx : subs[idx]? with _ | sub0
    · rw [hidx] at hm; exact h sub (by simpa using hm)
    · rw [hidx] at hm
      simp only at hm
      rcases htry : tryShard A sub0 with ⟨r1, errs⟩
      rw [htry] at hm
      rcases r1 with _ | ⟨i, sub1⟩
      · simp only at hm
        exact ih h sub hm
      · simp only at hm
        rcases List.mem_or_eq_of_mem_set hm with hmem | rfl
        · exact h sub hmem
        · exact tryShard_subOk (h sub0 (mem_of_getElem? hidx)) htry

/-- Queue growth does not touch the shards. -/
theorem pool_grow_queue_sub_pools {p : PoolState} {d : Nat} {growOk : Bool} :
    (pool_grow_queue p d growOk).2.1.sub_pools = p.sub_pools := by
  unfold pool_grow_queue
  split
  · rfl
  · split <;> rfl

/-- Busy accounting survives `pool_acquire`. -/
theorem pool_acquire_poolOk {A : Allocator} {p : PoolState} {rand : Nat} {hasCb : Bool}
    {ctx : Nat} {growOk : Bool} (hok : poolOk p) :
    poolOk (pool_acquire A p rand hasCb ctx growOk).2.1 := by
  unfold pool_acquire
  rcases htr : tryShards A p.sub_pools (probeOrder p.sub_pools.length rand) with ⟨r1, subs2, errs⟩
  have hsubs : ∀ sub ∈ subs2, subOk sub := by
    have h2 := @tryShards_subOk A (probeOrder p.sub_pools.length rand) p.sub_pools hok
    rw [htr] at h2
    exact h2
  rcases r1 with _ | ⟨si, i⟩
  · simp only
    split
    · exact hok
    · split
      · rcases hgq : pool_grow_queue p p.queue_capacity growOk with ⟨b, p2, e2⟩
        have hp2 : p2.sub_pools = p.sub_pools := by
          have h3 : (pool_grow_queue p p.queue_capacity growOk).2.1.sub_pools =
              p.sub_pools := pool_grow_queue_sub_pools
          rw [hgq] at h3
          exact h3
        rcases b
        · show poolOk p2
          rw [poolOk, hp2]
          exact hok
        · show poolOk { p2 with
            queue := p2.queue ++ [{ hasCallback := hasCb, ctx := ctx }]
            queue_max_size := _ }
          rw [poolOk]
          simp only [hp2]
          exact hok
      · exact hok
  · exact hsubs

/-- Busy accounting survives `pool_release`, including both hand-off shapes. -/
theorem pool_release_poolOk {A : Allocator} {p : PoolState} {i j : Nat} (hok : poolOk p) :
    poolOk (pool_release A p i j).2.1 := by
  unfold pool_release
  rcases hsub : p.sub_pools[i]? with _ | sub
  · exact hok
  dsimp only
  rcases hslot : sub.slots[j]? with _ | slot
  · exact hok
  dsimp only
  rcases hobj : slot.obj with _ | payl
  · exact hok
  dsimp only
  by_cases hval : A.validate payl = false
  · rw [if_pos hval]; exact hok
  rw [if_neg hval]
  by_cases hused : slot.used = true
  · rw [if_pos hused]
    have hokSub : subOk sub := hok sub (mem_of_getElem? hsub)
    have hjlt : j < sub.slots.length := (List.getElem?_eq_some_iff.mp hslot).1
    have hpos : 1 ≤ sub.slots.countP (fun x => x.used) := countP_pos_of_used hslot hused
    have h1 : subOk { sub with
        slots := sub.slots.set j { obj := some (A.reset payl), used := false }
        used_count := sub.used_count - 1
        release_count := sub.release_count + 1 } := by
      show sub.used_count - 1 = _
      rw [countP_set_false hslot hused _ rfl, hokSub]
    have h2 : subOk { sub with
        slots := (sub.slots.set j { obj := some (A.reset payl), used := false }).set j
          { obj := some (A.on_reuse (A.reset payl)), used := true }
        used_count := sub.used_count - 1 + 1
        acquire_count := sub.acquire_count + 1
        release_count := sub.release_count + 1 } := by
      show sub.used_count - 1 + 1 = _
      have hget : (sub.slots.set j { obj := some (A.reset payl), used := false })[j]? =
          some { obj := some (A.reset payl), used := false } :=
        List.getElem?_set_self (by simpa using hjlt)
      rw [countP_set_true hget rfl _ rfl, countP_set_false hslot hused _ rfl, hokSub]
    rcases hq : p.queue with _ | ⟨req, qrest⟩
    · intro sub2 hm
      rcases List.mem_or_eq_of_mem_set hm with hmem | rfl
      · exact hok sub2 hmem
      · exact h1
    · dsimp only
      by_cases hcb : req.hasCallback = true ∧ A.validate (A.reset payl) = true
      · rw [if_pos hcb]
        intro sub2 hm
        rcases List.mem_or_eq_of_mem_set hm with hmem | rfl
        · exact hok sub2 hmem
        · exact h2
      · rw [if_neg hcb]
        intro sub2 hm
        rcases List.mem_or_eq_of_mem_set hm with hmem | rfl
        · exact hok sub2 hmem
        · exact h1
  · rw [if_neg hused]
    exact hok

/-- Newly constructed slots are all free. -/
theorem newSlots_countP {A : Allocator} {init : Nat → Nat} {start add : Nat} :
    (newSlots A init start add).countP (fun s => s.used) = 0 := by
  rw [List.countP_eq_zero]
  intro s hs
  simp only [newSlots, List.mem_map] at hs
  obtain ⟨k, _, rfl⟩ := hs
  simp [newSlot]

/-- Busy accounting survives a shard growth. -/
theorem growSub_subOk {A : Allocator} {init : Nat → Nat} {sub : SubPool} {add : Nat}
    (hok : subOk sub) : subOk (growSub A init sub add) := by
  show sub.used_count =
    List.countP (fun s => s.used) (sub.slots ++ newSlots A init sub.slots.length add)
  rw [List.countP_append, newSlots_countP, hok]
  omega

/-- Busy accounting survives the grow loop. -/
theorem growLoop_subOk {A : Allocator} {mkObj : Nat → Nat → Nat} {shardOk : Nat → Bool} :
    ∀ {subs : List SubPool} {base rem i : Nat},
      (∀ sub ∈ subs, subOk sub) →
      ∀ sub ∈ (growLoop A mkObj shardOk subs base rem i).1, subOk sub := by
  intro subs
  induction subs with
  | nil => intro base rem i h sub hm; simp [growLoop] at hm
  | cons sub0 rest ih =>
    intro base rem i h sub hm
    unfold growLoop at hm
    simp only at hm
    by_cases h0 : share base rem i = 0
    · rw [if_pos h0] at hm
      rcases List.mem_cons.mp hm with rfl | hm
      · exact h sub (by simp)
      · exact ih (fun x hx => h x (by simp [hx])) sub hm
    · rw [if_neg h0] at hm
      by_cases hlim : SUB_POOL_SIZE_LIMIT < sub0.slots.length + share base rem i
      · rw [if_pos hlim] at hm
        exact h sub hm
      · rw [if_neg hlim] at hm
        by_cases hso : shardOk i = true
        · rw [if_pos hso] at hm
          rcases List.mem_cons.mp hm with rfl | hm
          · exact growSub_subOk (h sub0 (by simp))
          · exact ih (fun x hx => h x (by simp [hx])) sub hm
        · rw [if_neg hso] at hm
          exact h sub hm

/-- Busy accounting survives `pool_grow`. -/
theorem pool_grow_poolOk {A : Allocator} {mkObj : Nat → Nat → Nat} {shardOk : Nat → Bool}
    {p : PoolState} {n : Nat} (hok : poolOk p) :
    poolOk (pool_grow A mkObj shardOk p n).2.1 := by
  unfold pool_grow
  split
  · exact hok
  · simp only
    split
    · exact fun sub hm => growLoop_subOk hok sub hm
    · exact fun sub hm => growLoop_subOk hok sub hm

/-- Length bound of the free run. -/
theorem freeRunAux_le_length : ∀ {l : List Slot}, freeRunAux l ≤ l.length := by
  intro l
  induction l with
  | nil => simp [freeRunAux]
  | cons s rest ih =>
    unfold freeRunAux
    split
    · simp
    · simpa using ih

/-- A prefix shorter than the free run is all free. -/
theorem freeRunAux_take_free : ∀ {l : List Slot} {k : Nat}, k ≤ freeRunAux l →
    ∀ s ∈ l.take k, s.used = false := by
  intro l
  induction l with
  | nil => intro k hk s hs; simp at hs
  | cons s0 rest ih =>
    intro k hk s hs
    unfold freeRunAux at hk
    by_cases hu : s0.used = true
    · rw [if_pos hu] at hk
      have : k = 0 := by omega
      subst this
      simp at hs
    · rw [if_neg hu] at hk
      cases k with
      | zero => simp at hs
      | succ k2 =>
        simp only [List.take_succ_cons, List.mem_cons] at hs
        rcases hs with rfl | hs
        · simpa using hu
        · exact ih (by omega) s hs

theorem freeRunLen_le_length {slots : List Slot} : freeRunLen slots ≤ slots.length := by
  have h : freeRunAux slots.reverse ≤ slots.reverse.length := freeRunAux_le_length
  simpa [freeRunLen] using h

/-- Slots inside the free tail are free. -/
theorem drop_free_of_freeRun {slots : List Slot} {red : Nat} (h : red ≤ freeRunLen slots) :
    ∀ s ∈ slots.drop (slots.length - red), s.used = false := by
  intro s hs
  have hred : red ≤ slots.length := le_trans h freeRunLen_le_length
  have hmem : s ∈ slots.reverse.take red := by
    have h2 : s ∈ (slots.drop (slots.length - red)).reverse := by simpa using hs
    rw [List.reverse_drop] at h2
    have h3 : slots.length - (slots.length - red) = red := by omega
    rwa [h3] at h2
  exact freeRunAux_take_free h s hmem

/-- Truncating a free tail does not change the busy count. -/
theorem countP_take_of_freeRun {slots : List Slot} {red : Nat} (h : red ≤ freeRunLen slots) :
    (slots.take (slots.length - red)).countP (fun s => s.used) =
      slots.countP (fun s => s.used) := by
  conv_rhs => rw [← List.take_append_drop (slots.length - red) slots]
  rw [List.countP_append]
  have h0 : (slots.drop (slots.length - red)).countP (fun s => s.used) = 0 :=
    List.countP_eq_zero.mpr (fun s hs => by simp [drop_free_of_freeRun h s hs])
  omega

/-- Busy accounting survives a successful shard shrink. -/
theorem shrinkSub_subOk {sub : SubPool} {red : Nat} (hok : subOk sub)
    (h : red ≤ freeRunLen sub.slots) : subOk (shrinkSub sub red) := by
  show sub.used_count = _
  rw [hok]
  exact (countP_take_of_freeRun h).symm

/-- Busy accounting survives the failed-realloc shard state. -/
theorem destroyTail_subOk {sub : SubPool} {red : Nat} (hok : subOk sub) :
    subOk (destroyTail sub red) := by
  show sub.used_count = List.countP (fun s => s.used)
    (sub.slots.take (sub.slots.length - red) ++
      (sub.slots.drop (sub.slots.length - red)).map (fun s => { s with obj := none }))
  rw [hok]
  conv_lhs => rw [← List.take_append_drop (sub.slots.length - red) sub.slots]
  rw [List.countP_append, List.countP_append, List.countP_map]
  rfl

/-- Busy accounting survives the shrink loop. -/
theorem shrinkLoop_subOk {reallocOk : Nat → Bool} :
    ∀ {subs : List SubPool} {base rem i : Nat},
      (∀ sub ∈ subs, subOk sub) →
      ∀ sub ∈ (shrinkLoop reallocOk subs base rem i).1, subOk sub := by
  intro subs
  induction subs with
  | nil => intro base rem i h sub hm; simp [shrinkLoop] at hm
  | cons sub0 rest ih =>
    intro base rem i h sub hm
    unfold shrinkLoop at hm
    simp only at hm
    by_cases h0 : share base rem i = 0
    · rw [if_pos h0] at hm
      rcases List.mem_cons.mp hm with rfl | hm
      · exact h sub (by simp)
      · exact ih (fun x hx => h x (by simp [hx])) sub hm
    · rw [if_neg h0] at hm
      by_cases hins : min (freeRunLen sub0.slots) (share base rem i) < share base rem i
      · rw [if_pos hins] at hm
        exact h sub hm
      · rw [if_neg hins] at hm
        have hfree : share base rem i ≤ freeRunLen sub0.slots := by omega
        by_cases hro : reallocOk i = true
        · rw [if_pos hro] at hm
          rcases List.mem_cons.mp hm with rfl | hm
          · exact shrinkSub_subOk (h sub0 (by simp)) hfree
          · exact ih (fun x hx => h x (by simp [hx])) sub hm
        · rw [if_neg hro] at hm
          rcases List.mem_cons.mp hm with rfl | hm
          · exact destroyTail_subOk (h sub0 (by simp))
          · exact h sub (by simp [hm])

/-- Busy accounting survives `pool_shrink`. -/
theorem pool_shrink_poolOk {reallocOk : Nat → Bool} {p : PoolState} {k : Nat}
    (hok : poolOk p) : poolOk (pool_shrink reallocOk p k).2.1 := by
  unfold pool_shrink
  split
  · exact hok
  · simp only
    split
    · exact fun sub hm => shrinkLoop_subOk hok sub hm
    · exact fun sub hm => shrinkLoop_subOk hok sub hm

/-- Busy accounting survives `pool_grow_queue`. -/
theorem pool_grow_queue_poolOk {p : PoolState} {d : Nat} {growOk : Bool} (hok : poolOk p) :
    poolOk (pool_grow_queue p d growOk).2.1 := by
  rw [poolOk, pool_grow_queue_sub_pools]
  exact hok

/-- Busy accounting survives every single operation. -/
theorem step_poolOk {A : Allocator} {p : PoolState} {op : Op} (hok : poolOk p) :
    poolOk (step A p op) := by
  cases op with
  | acquire rand hasCb ctx growOk => exact pool_acquire_poolOk hok
  | release i j => exact pool_release_poolOk hok
  | grow n mkObj shardOk => exact pool_grow_poolOk hok
  | shrink k reallocOk => exact pool_shrink_poolOk hok
  | growQueue d growOk => exact pool_grow_queue_poolOk hok

/-- Busy accounting survives every operation sequence. -/
theorem run_poolOk {A : Allocator} : ∀ {ops : List Op} {p : PoolState},
    poolOk p → poolOk (run A p ops) := by
  intro ops
  induction ops with
  | nil => intro p hok; exact hok
  | cons op rest ih => intro p hok; exact ih (step_poolOk hok)

/-- A freshly created pool satisfies busy accounting. -/
theorem pool_create_poolOk {A : Allocator} {mkObj : Nat → Nat → Nat} {ps sc : Nat}
    {p : PoolState} (h : (pool_create A mkObj ps sc).1 = some p) : poolOk p := by
  unfold pool_create at h
  split at h
  · simp at h
  split at h
  · simp at h
  split at h
  · simp at h
  · simp only [Option.some.injEq] at h
    subst h
    intro sub hm
    simp only [List.mem_map] at hm
    obtain ⟨i, _, rfl⟩ := hm
    show (0 : Nat) = (newSlots A (mkObj i) 0 (subSize ps sc i)).countP (fun s => s.used)
    rw [newSlots_countP]

/-- C5: for every shard at every observable point — after `pool_create` and any
sequence of lease, return (including hand-off), grow, shrink and queue-grow
operations — the local `used_count` equals the number of slots whose busy flag
is true. -/
theorem busy_accounting_all_ops (A : Allocator) (mkObj : Nat → Nat → Nat)
    (ps sc : Nat) (p : PoolState) (ops : List Op)
    (h : (pool_create A mkObj ps sc).1 = some p) :
    ∀ sub ∈ (run A p ops).sub_pools,
      sub.used_count = sub.slots.countP (fun s => s.used) :=
  run_poolOk (pool_create_poolOk h)

/-- Witness for C5 on a concrete pool and a sequence exercising every
operation kind. -/
theorem busy_accounting_all_ops_witness :
    (pool_create idAlloc zeroObj 4 2).1 = some pool42 ∧
    ((run idAlloc pool42 [Op.acquire 1 false 0 false, Op.acquire 0 true 5 false,
        Op.release 1 0, Op.grow 3 zeroObj (fun _ => true),
        Op.shrink 1 (fun _ => true), Op.growQueue 8 true]).sub_pools.all
      (fun sub => decide (sub.used_count = sub.slots.countP (fun s => s.used)))) = true :=
  ⟨by decide, by
    rw [List.all_eq_true]
    intro x hx
    rw [decide_eq_true_eq]
    exact busy_accounting_all_ops idAlloc zeroObj 4 2 pool42 _ (by decide) x hx⟩

/-- Probe indices stay below the shard count. -/
theorem probeOrder_lt {count rand : Nat} (hc : 0 < count) :
    ∀ idx ∈ probeOrder count rand, idx < count := by
  intro idx hm
  simp only [probeOrder, List.mem_map] at hm
  obtain ⟨a, _, rfl⟩ := hm
  exact Nat.mod_lt _ hc

/-- Position `a` of the probe order is `(rand % count + a) % count`. -/
theorem probeOrder_getElem? {count rand a : Nat} (h : a < count) :
    (probeOrder count rand)[a]? = some ((rand % count + a) % count) := by
  simp [probeOrder, List.getElem?_range h]

/-- Every shard index below the count appears at some probe position. -/
theorem probeOrder_covers {count rand idx : Nat} (h : idx < count) :
    ∃ a, a < count ∧ (rand % count + a) % count = idx := by
  have hc : 0 < count := lt_of_le_of_lt (Nat.zero_le _) h
  have hs0 : rand % count < count := Nat.mod_lt _ hc
  by_cases hle : rand % count ≤ idx
  · refine ⟨idx - rand % count, by omega, ?_⟩
    have h2 : rand % count + (idx - rand % count) = idx := by omega
    rw [h2]
    exact Nat.mod_eq_of_lt h
  · refine ⟨idx + count - rand % count, by omega, ?_⟩
    have h2 : rand % count + (idx + count - rand % count) = idx + count := by omega
    rw [h2, Nat.add_mod_right]
    exact Nat.mod_eq_of_lt h

/-- The probe loop stops inside the first listed shard holding a free valid
slot, and returns the index of the lowest free valid slot of that shard. -/
theorem tryShards_found {A : Allocator} :
    ∀ {order : List Nat} {subs : List SubPool} {a idx : Nat} {sub : SubPool},
      (∀ x ∈ subs, subOk x) →
      order[a]? = some idx → subs[idx]? = some sub → shardHasFreeValid A sub = true →
      (∀ a' idx' sub', a' < a → order[a']? = some idx' → subs[idx']? = some sub' →
        shardHasFreeValid A sub' = false) →
      (∀ idx' ∈ order, idx' < subs.length) →
      ∃ i payl s, (tryShards A subs order).1 = some (idx, i) ∧
        sub.slots[i]? = some s ∧ s.used = false ∧ s.obj = some payl ∧
        A.validate payl = true ∧
        ∀ i' s', i' < i → sub.slots[i']? = some s' → slotFreeValid A s' = false := by
  intro order
  induction order with
  | nil => intro subs a idx sub _ ha _ _ _ _; simp at ha
  | cons idx0 rest ih =>
    intro subs a idx sub hok ha hsub hhas hmin hvalid
    cases a with
    | zero =>
      simp only [List.getElem?_cons_zero, Option.some.injEq] at ha
      subst ha
      obtain ⟨i, sub2, errs, htry⟩ := tryShard_of_hasFree (hok sub (mem_of_getElem? hsub)) hhas
      obtain ⟨payl, hscan, hsub2⟩ := tryShard_some htry
      obtain ⟨s, hs, hu, hobj, hv, hmin2⟩ := findFreeValid_some hscan
      refine ⟨i, payl, s, ?_, hs, hu, hobj, hv, hmin2⟩
      unfold tryShards
      rw [hsub]
      dsimp only
      rw [htry]
    | succ a2 =>
      have hidx0lt : idx0 < subs.length := hvalid idx0 (by simp)
      rcases hsub0 : subs[idx0]? with _ | sub0
      · rw [List.getElem?_eq_none_iff] at hsub0; omega
      have hhas0 : shardHasFreeValid A sub0 = false :=
        hmin 0 idx0 sub0 (by omega) (by simp) hsub0
      have hnone := tryShard_none hhas0
      rcases htry : tryShard A sub0 with ⟨r1, e⟩
      rw [htry] at hnone
      simp only at hnone
      subst hnone
      have hrec := @ih subs a2 idx sub hok
        (by simpa using ha) hsub hhas
        (fun a' idx' sub' ha' h1 h2 => hmin (a' + 1) idx' sub' (by omega) (by simpa using h1) h2)
        (fun idx' hm => hvalid idx' (by simp [hm]))
      obtain ⟨i, payl, s, hres, hrest⟩ := hrec
      refine ⟨i, payl, s, ?_, hrest⟩
      unfold tryShards
      rw [hsub0]
      dsimp only
      rw [htry]
      dsimp only
      exact hres

/-- C4: whenever the pool holds at least one free slot passing validation (and
the per-shard busy accounting of C5 holds, as it does at every reachable
state), `pool_acquire` succeeds; it probes shards in the order
`(rand % count + a) % count` for `a = 0, 1, ...` from the PRNG-chosen entry
shard, and inside the first probed shard holding a free valid slot it returns
the lowest-indexed free slot whose payload passes validation. -/
theorem acquire_probes_in_order_lowest_index
    (A : Allocator) (p : PoolState) (rand : Nat) (hasCb : Bool) (ctx : Nat) (growOk : Bool)
    (hok : ∀ sub ∈ p.sub_pools, subOk sub)
    (hex : ∃ sub ∈ p.sub_pools, shardHasFreeValid A sub = true) :
    ∃ a si i, a < p.sub_pools.length ∧
      si = (rand % p.sub_pools.length + a) % p.sub_pools.length ∧
      (pool_acquire A p rand hasCb ctx growOk).1 = AcquireResult.acquired si i ∧
      (∀ a' sub', a' < a →
        p.sub_pools[(rand % p.sub_pools.length + a') % p.sub_pools.length]? = some sub' →
        shardHasFreeValid A sub' = false) ∧
      ∃ sub s payl, p.sub_pools[si]? = some sub ∧ sub.slots[i]? = some s ∧
        s.used = false ∧ s.obj = some payl ∧ A.validate payl = true ∧
        ∀ i' s', i' < i → sub.slots[i']? = some s' → slotFreeValid A s' = false := by
  classical
  obtain ⟨subw, hmemw, hhasw⟩ := hex
  obtain ⟨idxw, hidxw⟩ := List.mem_iff_getElem?.mp hmemw
  have hidxwlt : idxw < p.sub_pools.length := (List.getElem?_eq_some_iff.mp hidxw).1
  have hc : 0 < p.sub_pools.length := lt_of_le_of_lt (Nat.zero_le _) hidxwlt
  have hPex : ∃ a, a < p.sub_pools.length ∧ ∃ sub',
      p.sub_pools[(rand % p.sub_pools.length + a) % p.sub_pools.length]? = some sub' ∧
      shardHasFreeValid A sub' = true := by
    obtain ⟨a, ha, hpr⟩ := @probeOrder_covers p.sub_pools.length rand idxw hidxwlt
    exact ⟨a, ha, subw, by rw [hpr]; exact hidxw, hhasw⟩
  set a0 := Nat.find hPex with ha0def
  obtain ⟨ha0lt, sub, hsub, hhas⟩ := Nat.find_spec hPex
  have hres := @tryShards_found A (probeOrder p.sub_pools.length rand) p.sub_pools a0
    ((rand % p.sub_pools.length + a0) % p.sub_pools.length) sub hok
    (probeOrder_getElem? ha0lt) hsub hhas
    (fun a' idx' sub' ha' h1 h2 => by
      have hlt' : a' < p.sub_pools.length := by omega
      rw [probeOrder_getElem? hlt'] at h1
      injection h1 with h1
      subst h1
      by_contra hcon
      exact Nat.find_min hPex ha' ⟨hlt', sub', h2, by simpa using hcon⟩)
    (probeOrder_lt hc)
  obtain ⟨i, payl, s, hfound, hs, hu, hobj, hv, hmin⟩ := hres
  refine ⟨a0, (rand % p.sub_pools.length + a0) % p.sub_pools.length, i, ha0lt, rfl, ?_,
    fun a' sub' ha' h2 => by
      by_contra hcon
      exact Nat.find_min hPex ha' ⟨by omega, sub', h2, by simpa using hcon⟩,
    sub, s, payl, hsub, hs, hu, hobj, hv, hmin⟩
  unfold pool_acquire
  rcases htr : tryShards A p.sub_pools (probeOrder p.sub_pools.length rand) with ⟨r1, subs2, errs⟩
  rw [htr] at hfound
  simp only at hfound
  subst hfound
  rfl

/-- Witness for C4 at `pool42` with PRNG draw 1: the lease neither fails nor
parks. -/
theorem acquire_probes_in_order_lowest_index_witness :
    (pool_acquire idAlloc pool42 1 false 0 false).1 ≠ AcquireResult.failed ∧
    (pool_acquire idAlloc pool42 1 false 0 false).1 ≠ AcquireResult.parked := by
  obtain ⟨a, si, i, -, -, hacq, -, -⟩ :=
    acquire_probes_in_order_lowest_index idAlloc pool42 1 false 0 false
      (by decide) (by decide)
  rw [hacq]
  simp

/-- C1 (amended): when a release of a busy, validation-passing object meets a
non-empty backpressure queue, the head request is popped unconditionally; if
the popped request has no callback or the payload fails revalidation after its
reset, the hand-off is skipped — the slot stays free with its counters in the
released state, the call still returns success without error reports, but the
queue has lost its head. -/
theorem release_skips_handoff_pops_head
    (A : Allocator) (p : PoolState) (i j : Nat) (sub : SubPool) (slot : Slot) (payl : Nat)
    (req : Req) (qrest : List Req)
    (hsub : p.sub_pools[i]? = some sub) (hslot : sub.slots[j]? = some slot)
    (hobj : slot.obj = some payl) (hval : A.validate payl = true) (hused : slot.used = true)
    (hq : p.queue = req :: qrest)
    (hskip : ¬(req.hasCallback = true ∧ A.validate (A.reset payl) = true)) :
    pool_release A p i j =
      (true, { p with
        sub_pools := p.sub_pools.set i
          { sub with
            slots := sub.slots.set j { obj := some (A.reset payl), used := false }
            used_count := sub.used_count - 1
            release_count := sub.release_count + 1 }
        queue := qrest }, []) := by
  unfold pool_release
  rw [hsub]
  dsimp only
  rw [hslot]
  dsimp only
  rw [hobj]
  dsimp only
  rw [if_neg (by simp [hval]), if_pos hused, hq]
  dsimp only
  rw [if_neg hskip]

/-- Witness for C1 (amended) on `poolHandoff`: the queue head is dropped while
the slot stays free. -/
theorem release_skips_handoff_pops_head_witness :
    pool_release bumpAlloc poolHandoff 0 0 =
      (true, { poolHandoff with
        sub_pools := poolHandoff.sub_pools.set 0
          { slots := [{ obj := some 3, used := false }]
            used_count := 0
            max_used := 1
            acquire_count := 1
            release_count := 1 }
        queue := [] }, []) := by
  exact release_skips_handoff_pops_head bumpAlloc poolHandoff 0 0
    { slots := [{ obj := some 2, used := true }], used_count := 1, max_used := 1,
      acquire_count := 1, release_count := 0 }
    { obj := some 2, used := true } 2 { hasCallback := true, ctx := 7 } []
    (by decide) (by decide) (by decide) (by decide) (by decide) (by decide) (by decide)

/-- Sum of balanced shares over positions `0 .. n - 1`. -/
theorem share_range_sum (base rem : Nat) : ∀ n : Nat,
    ((List.range n).map (fun a => share base rem a)).sum = n * base + min rem n := by
  intro n
  induction n with
  | zero => simp
  | succ n ih =>
    rw [List.range_succ, List.map_append, List.sum_append]
    simp only [List.map_cons, List.map_nil, List.sum_cons, List.sum_nil]
    rw [ih]
    unfold share
    rw [Nat.succ_mul]
    by_cases h : n < rem
    · rw [if_pos h]; omega
    · rw [if_neg h]; omega

/-- Head decomposition of an offset share sum. -/
theorem range_map_sum_succ (f : Nat → Nat) (n i : Nat) :
    ((List.range (n + 1)).map (fun a => f (i + a))).sum =
      f i + ((List.range n).map (fun a => f (i + 1 + a))).sum := by
  rw [List.range_succ_eq_map, List.map_cons, List.sum_cons, List.map_map]
  have h : ((List.range n).map ((fun a => f (i + a)) ∘ Nat.succ)) =
      (List.range n).map (fun a => f (i + 1 + a)) := by
    apply List.map_congr_left
    intro a _
    simp only [Function.comp]
    congr 1
    omega
  rw [h]
  simp

/-- The failed-realloc shard state keeps the array length. -/
theorem destroyTail_length {sub : SubPool} {red : Nat} :
    (destroyTail sub red).slots.length = sub.slots.length := by
  show (sub.slots.take (sub.slots.length - red) ++
    (sub.slots.drop (sub.slots.length - red)).map (fun s : Slot => { s with obj := none })).length =
    sub.slots.length
  rw [List.length_append, List.length_take, List.length_map, List.length_drop]
  omega

/-- A busy slot sits below the cut line of a shrink whose free-tail check
passed. -/
theorem busy_below_cut {slots : List Slot} {red j : Nat} {s : Slot}
    (hfree : red ≤ freeRunLen slots) (hj : slots[j]? = some s) (hu : s.used = true) :
    j < slots.length - red := by
  by_contra hcon
  push_neg at hcon
  have hjlt : j < slots.length := (List.getElem?_eq_some_iff.mp hj).1
  have hmem : s ∈ slots.drop (slots.length - red) := by
    have h2 : (slots.drop (slots.length - red))[j - (slots.length - red)]? = some s := by
      rw [List.getElem?_drop]
      have h3 : slots.length - red + (j - (slots.length - red)) = j := by omega
      rw [h3]
      exact hj
    exact mem_of_getElem? h2
  have h4 := drop_free_of_freeRun hfree s hmem
  rw [hu] at h4
  simp at h4

/-- Shrink-loop failure: lengths kept, a single matching error, capacity does
not grow, and the reduction stays strictly below the sum of the listed
shares. -/
theorem shrinkLoop_fail {reallocOk : Nat → Bool} :
    ∀ {subs : List SubPool} {base rem i : Nat} {r},
      shrinkLoop reallocOk subs base rem i = r → r.2.1 = false →
      r.1.length = subs.length ∧
      (r.2.2 = [ErrorKind.insufficientUnused] ∨ r.2.2 = [ErrorKind.allocFailed]) ∧
      totalLen r.1 ≤ totalLen subs ∧
      totalLen subs <
        totalLen r.1 + ((List.range subs.length).map (fun a => share base rem (i + a))).sum := by
  intro subs
  induction subs with
  | nil =>
    intro base rem i r h hfail
    rw [shrinkLoop] at h
    subst h
    simp at hfail
  | cons sub0 rest ih =>
    intro base rem i r h hfail
    rw [shrinkLoop] at h
    dsimp only at h
    simp only [List.length_cons]
    rw [range_map_sum_succ (share base rem)]
    by_cases h0 : share base rem i = 0
    · rw [if_pos h0] at h
      subst h
      simp only at hfail
      obtain ⟨hlen, herr, hle, hlt⟩ := ih rfl hfail
      refine ⟨by simpa using hlen, herr, ?_, ?_⟩
      · show sub0.slots.length + totalLen _ ≤ sub0.slots.length + totalLen rest
        omega
      · show sub0.slots.length + totalLen rest <
          sub0.slots.length + totalLen _ + _
        omega
    · rw [if_neg h0] at h
      by_cases hins : min (freeRunLen sub0.slots) (share base rem i) < share base rem i
      · rw [if_pos hins] at h
        subst h
        refine ⟨rfl, Or.inl rfl, le_refl _, ?_⟩
        show totalLen (sub0 :: rest) < totalLen (sub0 :: rest) + _
        omega
      · rw [if_neg hins] at h
        have hfree : share base rem i ≤ freeRunLen sub0.slots := by omega
        have hredlen : share base rem i ≤ sub0.slots.length :=
          le_trans hfree freeRunLen_le_length
        by_cases hro : reallocOk i = true
        · rw [if_pos hro] at h
          subst h
          simp only at hfail
          obtain ⟨hlen, herr, hle, hlt⟩ := ih rfl hfail
          have hlen0 : (shrinkSub sub0 (share base rem i)).slots.length =
              sub0.slots.length - share base rem i := by
            show (sub0.slots.take (sub0.slots.length - share base rem i)).length = _
            rw [List.length_take]
            omega
          refine ⟨by simpa using hlen, herr, ?_, ?_⟩
          · show (shrinkSub sub0 (share base rem i)).slots.length + totalLen _ ≤
              sub0.slots.length + totalLen rest
            rw [hlen0]
            omega
          · show sub0.slots.length + totalLen rest <
              (shrinkSub sub0 (share base rem i)).slots.length + totalLen _ + _
            rw [hlen0]
            omega
        · rw [if_neg hro] at h
          subst h
          refine ⟨by simp, Or.inr rfl, ?_, ?_⟩
          · show (destroyTail sub0 (share base rem i)).slots.length + totalLen rest ≤
              sub0.slots.length + totalLen rest
            rw [destroyTail_length]
          · show sub0.slots.length + totalLen rest <
              (destroyTail sub0 (share base rem i)).slots.length + totalLen rest + _
            rw [destroyTail_length]
            omega

/-- Shrink-loop success: no errors, lengths as truncated, every shard cut by
exactly its share from the high end, and the capacity drop equals the sum of
the shares. -/
theorem shrinkLoop_success {reallocOk : Nat → Bool} :
    ∀ {subs : List SubPool} {base rem i : Nat} {r},
      shrinkLoop reallocOk subs base rem i = r → r.2.1 = true →
      r.2.2 = [] ∧ r.1.length = subs.length ∧
      (∀ a sub, subs[a]? = some sub →
        share base rem (i + a) ≤ sub.slots.length ∧
        ∃ sub2, r.1[a]? = some sub2 ∧
          sub2.slots = sub.slots.take (sub.slots.length - share base rem (i + a))) ∧
      totalLen r.1 + ((List.range subs.length).map (fun a => share base rem (i + a))).sum =
        totalLen subs := by
  intro subs
  induction subs with
  | nil =>
    intro base rem i r h hsucc
    rw [shrinkLoop] at h
    subst h
    refine ⟨rfl, rfl, ?_, by simp [totalLen]⟩
    intro a sub ha
    simp at ha
  | cons sub0 rest ih =>
    intro base rem i r h hsucc
    rw [shrinkLoop] at h
    dsimp only at h
    simp only [List.length_cons]
    rw [range_map_sum_succ (share base rem)]
    by_cases h0 : share base rem i = 0
    · rw [if_pos h0] at h
      subst h
      simp only at hsucc
      obtain ⟨herr, hlen, hpt, htot⟩ := ih rfl hsucc
      refine ⟨herr, by simpa using hlen, ?_, ?_⟩
      · intro a sub ha
        cases a with
        | zero =>
          simp only [List.getElem?_cons_zero, Option.some.injEq] at ha
          subst ha
          refine ⟨by simp [h0], sub0, by simp, ?_⟩
          simp only [Nat.add_zero]
          rw [h0, Nat.sub_zero, List.take_length]
        | succ a2 =>
          simp only [List.getElem?_cons_succ] at ha
          obtain ⟨hshare, sub2, hget, hslots⟩ := hpt a2 sub ha
          refine ⟨by simpa [show i + 1 + a2 = i + (a2 + 1) by omega] using hshare,
            sub2, by simpa using hget, ?_⟩
          rw [show i + (a2 + 1) = i + 1 + a2 by omega]
          exact hslots
      · show sub0.slots.length + totalLen _ + _ = sub0.slots.length + totalLen rest
        omega
    · rw [if_neg h0] at h
      by_cases hins : min (freeRunLen sub0.slots) (share base rem i) < share base rem i
      · rw [if_pos hins] at h
        subst h
        simp at hsucc
      · rw [if_neg hins] at h
        have hfree : share base rem i ≤ freeRunLen sub0.slots := by omega
        have hredlen : share base rem i ≤ sub0.slots.length :=
          le_trans hfree freeRunLen_le_length
        by_cases hro : reallocOk i = true
        · rw [if_pos hro] at h
          subst h
          simp only at hsucc
          obtain ⟨herr, hlen, hpt, htot⟩ := ih rfl hsucc
          have hlen0 : (shrinkSub sub0 (share base rem i)).slots.length =
              sub0.slots.length - share base rem i := by
            show (sub0.slots.take (sub0.slots.length - share base rem i)).length = _
            rw [List.length_take]
            omega
          refine ⟨herr, by simpa using hlen, ?_, ?_⟩
          · intro a sub ha
            cases a with
            | zero =>
              simp only [List.getElem?_cons_zero, Option.some.injEq] at ha
              subst ha
              exact ⟨by simpa using hredlen, shrinkSub sub0 (share base rem i), by simp, rfl⟩
            | succ a2 =>
              simp only [List.getElem?_cons_succ] at ha
              obtain ⟨hshare, sub2, hget, hslots⟩ := hpt a2 sub ha
              refine ⟨by simpa [show i + 1 + a2 = i + (a2 + 1) by omega] using hshare,
                sub2, by simpa using hget, ?_⟩
              rw [show i + (a2 + 1) = i + 1 + a2 by omega]
              exact hslots
          · show (shrinkSub sub0 (share base rem i)).slots.length + totalLen _ + _ =
              sub0.slots.length + totalLen rest
            rw [hlen0]
            omega
        · rw [if_neg hro] at h
          subst h
          simp at hsucc

/-- Busy slots survive the shrink loop unchanged, at the same coordinates. -/
theorem shrinkLoop_busy_preserved {reallocOk : Nat → Bool} :
    ∀ {subs : List SubPool} {base rem i : Nat} {r},
      shrinkLoop reallocOk subs base rem i = r →
      ∀ (a : Nat) (sub : SubPool) (j : Nat) (s : Slot),
        subs[a]? = some sub → sub.slots[j]? = some s → s.used = true →
        ∃ sub2, r.1[a]? = some sub2 ∧ sub2.slots[j]? = some s := by
  intro subs
  induction subs with
  | nil =>
    intro base rem i r h a sub j s ha
    simp at ha
  | cons sub0 rest ih =>
    intro base rem i r h a sub j s ha hj hu
    rw [shrinkLoop] at h
    dsimp only at h
    by_cases h0 : share base rem i = 0
    · rw [if_pos h0] at h
      subst h
      cases a with
      | zero =>
        simp only [List.getElem?_cons_zero, Option.some.injEq] at ha
        subst ha
        exact ⟨sub0, by simp, hj⟩
      | succ a2 =>
        simp only [List.getElem?_cons_succ] at ha
        obtain ⟨sub2, hget, hj2⟩ := ih rfl a2 sub j s ha hj hu
        exact ⟨sub2, by simpa using hget, hj2⟩
    · rw [if_neg h0] at h
      by_cases hins : min (freeRunLen sub0.slots) (share base rem i) < share base rem i
      · rw [if_pos hins] at h
        subst h
        exact ⟨sub, ha, hj⟩
      · rw [if_neg hins] at h
        have hfree : share base rem i ≤ freeRunLen sub0.slots := by omega
        have hredlen : share base rem i ≤ sub0.slots.length :=
          le_trans hfree freeRunLen_le_length
        by_cases hro : reallocOk i = true
        · rw [if_pos hro] at h
          subst h
          cases a with
          | zero =>
            simp only [List.getElem?_cons_zero, Option.some.injEq] at ha
            subst ha
            have hcut : j < sub0.slots.length - share base rem i :=
              busy_below_cut hfree hj hu
            refine ⟨shrinkSub sub0 (share base rem i), by simp, ?_⟩
            show (sub0.slots.take (sub0.slots.length - share base rem i))[j]? = some s
            rw [List.getElem?_take_of_lt hcut]
            exact hj
          | succ a2 =>
            simp only [List.getElem?_cons_succ] at ha
            obtain ⟨sub2, hget, hj2⟩ := ih rfl a2 sub j s ha hj hu
            exact ⟨sub2, by simpa using hget, hj2⟩
        · rw [if_neg hro] at h
          subst h
          cases a with
          | zero =>
            simp only [List.getElem?_cons_zero, Option.some.injEq] at ha
            subst ha
            have hcut : j < sub0.slots.length - share base rem i :=
              busy_below_cut hfree hj hu
            refine ⟨destroyTail sub0 (share base rem i), by simp, ?_⟩
            show (sub0.slots.take (sub0.slots.length - share base rem i) ++
              (sub0.slots.drop (sub0.slots.length - share base rem i)).map
                (fun x : Slot => { x with obj := none }))[j]? = some s
            rw [List.getElem?_append_left (by rw [List.length_take]; omega),
              List.getElem?_take_of_lt hcut]
            exact hj
          | succ a2 =>
            simp only [List.getElem?_cons_succ] at ha
            exact ⟨sub, by simpa using ha, hj⟩


/-- C6: `pool_shrink k` never destroys a slot whose busy flag is true (every
busy slot survives at its coordinates), never decreases `pool_capacity` by more
than `k`, and on success decreases capacity by exactly `k`, removing slots from
the high end of each shard according to the balanced partition of `k`. -/
theorem shrink_safety (reallocOk : Nat → Bool) (p : PoolState) (k : Nat)
    (r : Bool × PoolState × List ErrorKind) (h : pool_shrink reallocOk p k = r) :
    (∀ (a : Nat) (sub : SubPool) (j : Nat) (s : Slot),
      p.sub_pools[a]? = some sub → sub.slots[j]? = some s → s.used = true →
      ∃ sub2, r.2.1.sub_pools[a]? = some sub2 ∧ sub2.slots[j]? = some s) ∧
    pool_capacity r.2.1 ≤ pool_capacity p ∧
    pool_capacity p - pool_capacity r.2.1 ≤ k ∧
    (r.1 = true →
      pool_capacity r.2.1 = pool_capacity p - k ∧
      ∀ (a : Nat) (sub : SubPool), p.sub_pools[a]? = some sub →
        ∃ sub2, r.2.1.sub_pools[a]? = some sub2 ∧
          sub2.slots = sub.slots.take (sub.slots.length -
            share (k / p.sub_pools.length) (k % p.sub_pools.length) a)) := by
  unfold pool_shrink at h
  by_cases hguard : k = 0 ∨ pool_capacity p < k
  · rw [if_pos hguard] at h
    subst h
    exact ⟨fun a sub j s h1 h2 _ => ⟨sub, h1, h2⟩, le_refl _, by simp, by simp⟩
  · rw [if_neg hguard] at h
    push_neg at hguard
    have hc : 0 < p.sub_pools.length := by
      rcases Nat.eq_zero_or_pos p.sub_pools.length with h0 | h0
      · have hcap0 : pool_capacity p = 0 := by
          unfold pool_capacity
          rw [List.length_eq_zero.mp h0]
          simp
        omega
      · exact h0
    dsimp only at h
    rcases hloop : shrinkLoop reallocOk p.sub_pools (k / p.sub_pools.length)
      (k % p.sub_pools.length) 0 with ⟨subs2, ok2, errs2⟩
    rw [hloop] at h
    have hrem : k % p.sub_pools.length < p.sub_pools.length := Nat.mod_lt _ hc
    have hsum : ((List.range p.sub_pools.length).map
        (fun a => share (k / p.sub_pools.length) (k % p.sub_pools.length) (0 + a))).sum = k := by
      have h1 : ((List.range p.sub_pools.length).map
          (fun a => share (k / p.sub_pools.length) (k % p.sub_pools.length) (0 + a))) =
          ((List.range p.sub_pools.length).map
          (fun a => share (k / p.sub_pools.length) (k % p.sub_pools.length) a)) := by
        apply List.map_congr_left
        intro a _
        simp
      rw [h1, share_range_sum, Nat.min_eq_left (le_of_lt hrem)]
      exact Nat.div_add_mod k p.sub_pools.length
    have hbusy := shrinkLoop_busy_preserved hloop
    rcases ok2 with _ | _
    · subst h
      obtain ⟨hlen, herrs, hle, hlt⟩ := shrinkLoop_fail hloop rfl
      dsimp only at hle hlt
      rw [hsum] at hlt
      refine ⟨fun a sub j s h1 h2 h3 => hbusy a sub j s h1 h2 h3, ?_, ?_, by simp⟩
      · show totalLen subs2 ≤ totalLen p.sub_pools
        exact hle
      · show totalLen p.sub_pools - totalLen subs2 ≤ k
        omega
    · subst h
      obtain ⟨herrs, hlen, hpt, htot⟩ := shrinkLoop_success hloop rfl
      dsimp only at htot hpt
      simp only [Nat.zero_add] at hpt
      rw [hsum] at htot
      refine ⟨fun a sub j s h1 h2 h3 => hbusy a sub j s h1 h2 h3, ?_, ?_, fun _ => ⟨?_, ?_⟩⟩
      · show totalLen subs2 ≤ totalLen p.sub_pools
        omega
      · show totalLen p.sub_pools - totalLen subs2 ≤ k
        omega
      · show totalLen subs2 = totalLen p.sub_pools - k
        omega
      · intro a sub h1
        obtain ⟨hshare, sub2, hget, hslots⟩ := hpt a sub h1
        exact ⟨sub2, hget, hslots⟩

/-- Witness for C6 on `pool42` (capacity clauses of a successful
`pool_shrink 2`). -/
theorem shrink_safety_witness :
    pool_capacity (pool_shrink (fun _ => true) pool42 2).2.1 ≤ pool_capacity pool42 ∧
    pool_capacity pool42 - pool_capacity (pool_shrink (fun _ => true) pool42 2).2.1 ≤ 2 := by
  have h := shrink_safety (fun _ => true) pool42 2 _ rfl
  exact ⟨h.2.1, h.2.2.1⟩

/-- C2 (amended): whenever `pool_shrink` fails with `InsufficientFree`, it
returns failure and destroys nothing in the failing shard or any later shard,
but shards already processed keep their reductions: capacity may decrease,
though by strictly less than the requested `k`. -/
theorem shrink_insufficient_bounded (reallocOk : Nat → Bool) (p : PoolState) (k : Nat)
    (r : Bool × PoolState × List ErrorKind) (h : pool_shrink reallocOk p k = r)
    (hkind : r.2.2 = [ErrorKind.insufficientUnused]) :
    r.1 = false ∧ pool_capacity r.2.1 ≤ pool_capacity p ∧
    pool_capacity p - pool_capacity r.2.1 < k := by
  unfold pool_shrink at h
  by_cases hguard : k = 0 ∨ pool_capacity p < k
  · rw [if_pos hguard] at h
    subst h
    simp at hkind
  · rw [if_neg hguard] at h
    push_neg at hguard
    have hc : 0 < p.sub_pools.length := by
      rcases Nat.eq_zero_or_pos p.sub_pools.length with h0 | h0
      · have hcap0 : pool_capacity p = 0 := by
          unfold pool_capacity
          rw [List.length_eq_zero.mp h0]
          simp
        omega
      · exact h0
    dsimp only at h
    rcases hloop : shrinkLoop reallocOk p.sub_pools (k / p.sub_pools.length)
      (k % p.sub_pools.length) 0 with ⟨subs2, ok2, errs2⟩
    rw [hloop] at h
    have hrem : k % p.sub_pools.length < p.sub_pools.length := Nat.mod_lt _ hc
    have hsum : ((List.range p.sub_pools.length).map
        (fun a => share (k / p.sub_pools.length) (k % p.sub_pools.length) (0 + a))).sum = k := by
      have h1 : ((List.range p.sub_pools.length).map
          (fun a => share (k / p.sub_pools.length) (k % p.sub_pools.length) (0 + a))) =
          ((List.range p.sub_pools.length).map
          (fun a => share (k / p.sub_pools.length) (k % p.sub_pools.length) a)) := by
        apply List.map_congr_left
        intro a _
        simp
      rw [h1, share_range_sum, Nat.min_eq_left (le_of_lt hrem)]
      exact Nat.div_add_mod k p.sub_pools.length
    rcases ok2 with _ | _
    · subst h
      obtain ⟨hlen, herrs, hle, hlt⟩ := shrinkLoop_fail hloop rfl
      dsimp only at hle hlt
      rw [hsum] at hlt
      refine ⟨rfl, ?_, ?_⟩
      · show totalLen subs2 ≤ totalLen p.sub_pools
        exact hle
      · show totalLen p.sub_pools - totalLen subs2 < k
        omega
    · subst h
      obtain ⟨herrs, -, -, -⟩ := shrinkLoop_success hloop rfl
      rw [herrs] at hkind
      simp at hkind

/-- Witness for C2 (amended) on `pool42Busy1`: shrink of 2 fails with
`InsufficientFree` while capacity drops by 1 < 2. -/
theorem shrink_insufficient_bounded_witness :
    (pool_shrink (fun _ => true) pool42Busy1 2).1 = false ∧
    pool_capacity (pool_shrink (fun _ => true) pool42Busy1 2).2.1 ≤
      pool_capacity pool42Busy1 ∧
    pool_capacity pool42Busy1 -
      pool_capacity (pool_shrink (fun _ => true) pool42Busy1 2).2.1 < 2 :=
  shrink_insufficient_bounded (fun _ => true) pool42Busy1 2 _ rfl (by decide)

/-- Grow-loop success: no errors and every shard extended by exactly its
balanced share (an empty extension for zero shares). -/
theorem growLoop_success {A : Allocator} {mkObj : Nat → Nat → Nat} {shardOk : Nat → Bool} :
    ∀ {subs : List SubPool} {base rem i : Nat} {r},
      growLoop A mkObj shardOk subs base rem i = r → r.2.1 = true →
      r.2.2 = [] ∧ r.1.length = subs.length ∧
      ∀ (a : Nat) (sub : SubPool), subs[a]? = some sub →
        r.1[a]? = some { sub with
          slots := sub.slots ++ newSlots A (mkObj (i + a)) sub.slots.length
            (share base rem (i + a)) } := by
  intro subs
  induction subs with
  | nil =>
    intro base rem i r h hsucc
    rw [growLoop] at h
    subst h
    exact ⟨rfl, rfl, fun a sub ha => by simp at ha⟩
  | cons sub0 rest ih =>
    intro base rem i r h hsucc
    rw [growLoop] at h
    dsimp only at h
    by_cases h0 : share base rem i = 0
    · rw [if_pos h0] at h
      subst h
      simp only at hsucc
      obtain ⟨herr, hlen, hpt⟩ := ih rfl hsucc
      refine ⟨herr, by simpa using hlen, ?_⟩
      intro a sub ha
      cases a with
      | zero =>
        simp only [List.getElem?_cons_zero, Option.some.injEq] at ha
        subst ha
        simp only [List.getElem?_cons_zero, Option.some.injEq]
        rw [show share base rem (i + 0) = 0 by simpa using h0]
        simp [newSlots]
      | succ a2 =>
        simp only [List.getElem?_cons_succ] at ha
        have h2 := hpt a2 sub ha
        simpa [show i + 1 + a2 = i + (a2 + 1) by omega] using h2
    · rw [if_neg h0] at h
      by_cases hlim : SUB_POOL_SIZE_LIMIT < sub0.slots.length + share base rem i
      · rw [if_pos hlim] at h
        subst h
        simp at hsucc
      · rw [if_neg hlim] at h
        by_cases hso : shardOk i = true
        · rw [if_pos hso] at h
          subst h
          simp only at hsucc
          obtain ⟨herr, hlen, hpt⟩ := ih rfl hsucc
          refine ⟨herr, by simpa using hlen, ?_⟩
          intro a sub ha
          cases a with
          | zero =>
            simp only [List.getElem?_cons_zero, Option.some.injEq] at ha
            subst ha
            simp only [List.getElem?_cons_zero, Option.some.injEq]
            rfl
          | succ a2 =>
            simp only [List.getElem?_cons_succ] at ha
            have h2 := hpt a2 sub ha
            simpa [show i + 1 + a2 = i + (a2 + 1) by omega] using h2
        · rw [if_neg hso] at h
          subst h
          simp at hsucc

/-- Grow-loop failure: one matching error and a cut position `m` such that
shards before `m` carry their full extension while shards from `m` on are
untouched. -/
theorem growLoop_fail {A : Allocator} {mkObj : Nat → Nat → Nat} {shardOk : Nat → Bool} :
    ∀ {subs : List SubPool} {base rem i : Nat} {r},
      growLoop A mkObj shardOk subs base rem i = r → r.2.1 = false →
      (r.2.2 = [ErrorKind.invalidSize] ∨ r.2.2 = [ErrorKind.allocFailed]) ∧
      ∃ m, (∀ (a : Nat) (sub : SubPool), a < m → subs[a]? = some sub →
        r.1[a]? = some { sub with
          slots := sub.slots ++ newSlots A (mkObj (i + a)) sub.slots.length
            (share base rem (i + a)) }) ∧
      (∀ a : Nat, m ≤ a → r.1[a]? = subs[a]?) := by
  intro subs
  induction subs with
  | nil =>
    intro base rem i r h hfail
    rw [growLoop] at h
    subst h
    simp at hfail
  | cons sub0 rest ih =>
    intro base rem i r h hfail
    rw [growLoop] at h
    dsimp only at h
    by_cases h0 : share base rem i = 0
    · rw [if_pos h0] at h
      subst h
      simp only at hfail
      obtain ⟨herr, m, hpre, hpost⟩ := ih rfl hfail
      refine ⟨herr, m + 1, ?_, ?_⟩
      · intro a sub ha hsub
        cases a with
        | zero =>
          simp only [List.getElem?_cons_zero, Option.some.injEq] at hsub
          subst hsub
          simp only [List.getElem?_cons_zero, Option.some.injEq]
          rw [show share base rem (i + 0) = 0 by simpa using h0]
          simp [newSlots]
        | succ a2 =>
          simp only [List.getElem?_cons_succ] at hsub ⊢
          have h2 := hpre a2 sub (by omega) hsub
          simpa [show i + 1 + a2 = i + (a2 + 1) by omega] using h2
      · intro a ha
        cases a with
        | zero => omega
        | succ a2 =>
          simp only [List.getElem?_cons_succ]
          exact hpost a2 (by omega)
    · rw [if_neg h0] at h
      by_cases hlim : SUB_POOL_SIZE_LIMIT < sub0.slots.length + share base rem i
      · rw [if_pos hlim] at h
        subst h
        exact ⟨Or.inl rfl, 0, fun a sub ha _ => by omega, fun a _ => rfl⟩
      · rw [if_neg hlim] at h
        by_cases hso : shardOk i = true
        · rw [if_pos hso] at h
          subst h
          simp only at hfail
          obtain ⟨herr, m, hpre, hpost⟩ := ih rfl hfail
          refine ⟨herr, m + 1, ?_, ?_⟩
          · intro a sub ha hsub
            cases a with
            | zero =>
              simp only [List.getElem?_cons_zero, Option.some.injEq] at hsub
              subst hsub
              simp only [List.getElem?_cons_zero, Option.some.injEq]
              rfl
            | succ a2 =>
              simp only [List.getElem?_cons_succ] at hsub ⊢
              have h2 := hpre a2 sub (by omega) hsub
              simpa [show i + 1 + a2 = i + (a2 + 1) by omega] using h2
          · intro a ha
            cases a with
            | zero => omega
            | succ a2 =>
              simp only [List.getElem?_cons_succ]
              exact hpost a2 (by omega)
        · rw [if_neg hso] at h
          subst h
          exact ⟨Or.inr rfl, 0, fun a sub ha _ => by omega, fun a _ => rfl⟩

/-- C7: `pool_grow n` partitions the new objects as `base = n / shard_count`
plus one extra for the first `n mod shard_count` shards. On success every shard
is extended by its share and `total_objects_allocated`/`grow_count` advance; on
failure a prefix of shards keeps the new sizes (partial growth is visible), the
remaining shards are untouched, the call returns failure, and the pool-level
counters do not advance. -/
theorem grow_partition_partial_visibility (A : Allocator) (mkObj : Nat → Nat → Nat)
    (shardOk : Nat → Bool) (p : PoolState) (n : Nat)
    (r : Bool × PoolState × List ErrorKind) (h : pool_grow A mkObj shardOk p n = r) :
    (r.1 = true →
      r.2.1.total_objects_allocated = p.total_objects_allocated + n ∧
      r.2.1.grow_count = p.grow_count + 1 ∧
      ∀ (a : Nat) (sub : SubPool), p.sub_pools[a]? = some sub →
        r.2.1.sub_pools[a]? = some { sub with
          slots := sub.slots ++ newSlots A (mkObj a) sub.slots.length
            (share (n / p.sub_pools.length) (n % p.sub_pools.length) a) }) ∧
    (r.1 = false →
      r.2.1.total_objects_allocated = p.total_objects_allocated ∧
      r.2.1.grow_count = p.grow_count ∧
      ∃ m, (∀ (a : Nat) (sub : SubPool), a < m → p.sub_pools[a]? = some sub →
          r.2.1.sub_pools[a]? = some { sub with
            slots := sub.slots ++ newSlots A (mkObj a) sub.slots.length
              (share (n / p.sub_pools.length) (n % p.sub_pools.length) a) }) ∧
        ∀ a : Nat, m ≤ a → r.2.1.sub_pools[a]? = p.sub_pools[a]?) := by
  unfold pool_grow at h
  by_cases hn : n = 0
  · rw [if_pos hn] at h
    subst h
    exact ⟨by simp, fun _ => ⟨rfl, rfl, 0, fun a sub ha _ => by omega, fun a _ => rfl⟩⟩
  · rw [if_neg hn] at h
    dsimp only at h
    rcases hloop : growLoop A mkObj shardOk p.sub_pools (n / p.sub_pools.length)
      (n % p.sub_pools.length) 0 with ⟨subs2, ok2, errs2⟩
    rw [hloop] at h
    rcases ok2 with _ | _
    · subst h
      obtain ⟨herrs, m, hpre, hpost⟩ := growLoop_fail hloop rfl
      dsimp only at hpre hpost
      refine ⟨by simp, fun _ => ⟨rfl, rfl, m, ?_, ?_⟩⟩
      · intro a sub ha hsub
        have h2 := hpre a sub ha hsub
        simpa [Nat.zero_add] using h2
      · intro a ha
        exact hpost a ha
    · subst h
      obtain ⟨herrs, hlen, hpt⟩ := growLoop_success hloop rfl
      dsimp only at hpt
      refine ⟨fun _ => ⟨rfl, rfl, ?_⟩, by simp⟩
      intro a sub hsub
      have h2 := hpt a sub hsub
      simpa [Nat.zero_add] using h2

/-- Witness for C7: a successful `pool_grow 3` on `pool42` advances the
counters. -/
theorem grow_partition_partial_visibility_witness :
    (pool_grow idAlloc zeroObj (fun _ => true) pool42 3).2.1.total_objects_allocated =
      pool42.total_objects_allocated + 3 ∧
    (pool_grow idAlloc zeroObj (fun _ => true) pool42 3).2.1.grow_count =
      pool42.grow_count + 1 := by
  have h := (grow_partition_partial_visibility idAlloc zeroObj (fun _ => true)
    pool42 3 _ rfl).1 (by decide)
  exact ⟨h.1, h.2.1⟩

/-- Queue growth never changes the allocation counter. -/
theorem pool_grow_queue_total {p : PoolState} {d : Nat} {growOk : Bool} :
    (pool_grow_queue p d growOk).2.1.total_objects_allocated =
      p.total_objects_allocated := by
  unfold pool_grow_queue
  split
  · rfl
  · split <;> rfl

/-- Acquire never changes the allocation counter. -/
theorem pool_acquire_total {A : Allocator} {p : PoolState} {rand : Nat} {hasCb : Bool}
    {ctx : Nat} {growOk : Bool} :
    (pool_acquire A p rand hasCb ctx growOk).2.1.total_objects_allocated =
      p.total_objects_allocated := by
  unfold pool_acquire
  rcases tryShards A p.sub_pools (probeOrder p.sub_pools.length rand) with ⟨r1, subs2, errs⟩
  rcases r1 with _ | ⟨si, i⟩
  · dsimp only
    split
    · rfl
    · split
      · rcases hgq : pool_grow_queue p p.queue_capacity growOk with ⟨b, p2, e2⟩
        have hp2 : p2.total_objects_allocated = p.total_objects_allocated := by
          have h2 : (pool_grow_queue p p.queue_capacity growOk).2.1.total_objects_allocated =
              p.total_objects_allocated := pool_grow_queue_total
          rw [hgq] at h2
          exact h2
        rcases b
        · exact hp2
        · exact hp2
      · rfl
  · rfl

/-- Release never changes the allocation counter. -/
theorem pool_release_total {A : Allocator} {p : PoolState} {i j : Nat} :
    (pool_release A p i j).2.1.total_objects_allocated = p.total_objects_allocated := by
  unfold pool_release
  rcases p.sub_pools[i]? with _ | sub
  · rfl
  dsimp only
  rcases sub.slots[j]? with _ | slot
  · rfl
  dsimp only
  rcases slot.obj with _ | payl
  · rfl
  dsimp only
  split
  · rfl
  split
  · rcases p.queue with _ | ⟨req, qrest⟩
    · rfl
    dsimp only
    split
    · rfl
    · rfl
  · rfl

/-- Grow never lowers the allocation counter. -/
theorem pool_grow_total_ge {A : Allocator} {mkObj : Nat → Nat → Nat} {shardOk : Nat → Bool}
    {p : PoolState} {n : Nat} :
    p.total_objects_allocated ≤
      (pool_grow A mkObj shardOk p n).2.1.total_objects_allocated := by
  unfold pool_grow
  split
  · exact le_refl _
  · dsimp only
    split
    · exact Nat.le_add_right _ _
    · exact le_refl _

/-- A non-shrink step never lowers the allocation counter. -/
theorem step_total_mono {A : Allocator} {p : PoolState} {op : Op}
    (h : op.isShrink = false) :
    p.total_objects_allocated ≤ (step A p op).total_objects_allocated := by
  cases op with
  | acquire rand hasCb ctx growOk => exact le_of_eq pool_acquire_total.symm
  | release i j => exact le_of_eq pool_release_total.symm
  | grow n mkObj shardOk => exact pool_grow_total_ge
  | shrink k reallocOk => simp [Op.isShrink] at h
  | growQueue d growOk => exact le_of_eq pool_grow_queue_total.symm

/-- C8 (amended): the `total_objects_allocated` counter reported by
`pool_stats` never decreases across any sequence of pool operations that
contains no `pool_shrink` (a successful shrink may lower the counter, see the
counterexample). -/
theorem total_allocated_monotone_without_shrink (A : Allocator) (p : PoolState)
    (ops : List Op) (h : ∀ op ∈ ops, op.isShrink = false) :
    (pool_stats p).total_objects_allocated ≤
      (pool_stats (run A p ops)).total_objects_allocated := by
  induction ops generalizing p with
  | nil => exact le_refl _
  | cons op rest ih =>
    have h1 := @step_total_mono A p op (h op (by simp))
    have h2 := ih (step A p op) (fun x hx => h x (by simp [hx]))
    exact le_trans h1 h2

/-- Witness for C8 (amended) over a shrink-free sequence on `pool42`. -/
theorem total_allocated_monotone_without_shrink_witness :
    (pool_stats pool42).total_objects_allocated ≤
      (pool_stats (run idAlloc pool42 [Op.acquire 0 false 0 false,
        Op.grow 2 zeroObj (fun _ => true), Op.release 0 0,
        Op.growQueue 4 true])).total_objects_allocated :=
  total_allocated_monotone_without_shrink idAlloc pool42 _ (by decide)

/-- Failure error shape of `pool_create` (modelled failure cases). -/
theorem pool_create_fail_errors {A : Allocator} {mkObj : Nat → Nat → Nat} {ps sc : Nat}
    {errs : List ErrorKind} (h : pool_create A mkObj ps sc = (none, errs)) :
    errs = [ErrorKind.invalidSize] := by
  unfold pool_create at h
  split at h
  · simp only [Prod.mk.injEq] at h
    exact h.2.symm
  split at h
  · simp only [Prod.mk.injEq] at h
    exact h.2.symm
  split at h
  · simp only [Prod.mk.injEq] at h
    exact h.2.symm
  · simp at h

/-- Failure error shape of `pool_release`. -/
theorem pool_release_fail_errors {A : Allocator} {p : PoolState} {i j : Nat}
    {p2 : PoolState} {errs : List ErrorKind}
    (h : pool_release A p i j = (false, p2, errs)) : errs = [ErrorKind.invalidObject] := by
  unfold pool_release at h
  rcases hsub : p.sub_pools[i]? with _ | sub
  · rw [hsub] at h
    simp only [Prod.mk.injEq] at h
    exact h.2.2.symm
  rw [hsub] at h
  dsimp only at h
  rcases hslot : sub.slots[j]? with _ | slot
  · rw [hslot] at h
    simp only [Prod.mk.injEq] at h
    exact h.2.2.symm
  rw [hslot] at h
  dsimp only at h
  rcases hobj : slot.obj with _ | payl
  · rw [hobj] at h
    simp only [Prod.mk.injEq] at h
    exact h.2.2.symm
  rw [hobj] at h
  dsimp only at h
  split at h
  · simp only [Prod.mk.injEq] at h
    exact h.2.2.symm
  split at h
  · rcases hq : p.queue with _ | ⟨req, qrest⟩
    · rw [hq] at h
      simp at h
    rw [hq] at h
    dsimp only at h
    split at h
    · simp at h
    · simp at h
  · simp only [Prod.mk.injEq] at h
    exact h.2.2.symm

/-- Failure error shape of `pool_grow`. -/
theorem pool_grow_fail_errors {A : Allocator} {mkObj : Nat → Nat → Nat}
    {shardOk : Nat → Bool} {p : PoolState} {n : Nat} {p2 : PoolState}
    {errs : List ErrorKind} (h : pool_grow A mkObj shardOk p n = (false, p2, errs)) :
    errs = [ErrorKind.invalidSize] ∨ errs = [ErrorKind.allocFailed] := by
  unfold pool_grow at h
  split at h
  · simp only [Prod.mk.injEq] at h
    exact Or.inl h.2.2.symm
  dsimp only at h
  rcases hloop : growLoop A mkObj shardOk p.sub_pools (n / p.sub_pools.length)
    (n % p.sub_pools.length) 0 with ⟨subs2, ok2, errs2⟩
  rw [hloop] at h
  rcases ok2 with _ | _
  · rw [if_neg (by simp)] at h
    simp only [Prod.mk.injEq] at h
    obtain ⟨herr, -⟩ := growLoop_fail hloop rfl
    dsimp only at herr
    rw [← h.2.2]
    exact herr
  · rw [if_pos rfl] at h
    simp at h

/-- Failure error shape of `pool_shrink`. -/
theorem pool_shrink_fail_errors {reallocOk : Nat → Bool} {p : PoolState} {k : Nat}
    {p2 : PoolState} {errs : List ErrorKind}
    (h : pool_shrink reallocOk p k = (false, p2, errs)) :
    errs = [ErrorKind.invalidSize] ∨ errs = [ErrorKind.insufficientUnused] ∨
      errs = [ErrorKind.allocFailed] := by
  unfold pool_shrink at h
  split at h
  · simp only [Prod.mk.injEq] at h
    exact Or.inl h.2.2.symm
  dsimp only at h
  rcases hloop : shrinkLoop reallocOk p.sub_pools (k / p.sub_pools.length)
    (k % p.sub_pools.length) 0 with ⟨subs2, ok2, errs2⟩
  rw [hloop] at h
  rcases ok2 with _ | _
  · rw [if_neg (by simp)] at h
    simp only [Prod.mk.injEq] at h
    obtain ⟨-, herr, -⟩ := shrinkLoop_fail hloop rfl
    dsimp only at herr
    rw [← h.2.2]
    exact Or.inr herr
  · rw [if_pos rfl] at h
    simp at h

/-- Failure error shape of `pool_grow_queue`. -/
theorem pool_grow_queue_fail_errors {p : PoolState} {d : Nat} {growOk : Bool}
    {p2 : PoolState} {errs : List ErrorKind}
    (h : pool_grow_queue p d growOk = (false, p2, errs)) :
    errs = [ErrorKind.invalidSize] ∨ errs = [ErrorKind.allocFailed] := by
  unfold pool_grow_queue at h
  split at h
  · simp only [Prod.mk.injEq] at h
    exact Or.inl h.2.2.symm
  split at h
  · simp at h
  · simp only [Prod.mk.injEq] at h
    exact Or.inr h.2.2.symm

/-- Failure error shape of `pool_acquire`: at least one report, ending with the
kind matching the failure cause. -/
theorem pool_acquire_failed_errors {A : Allocator} {p : PoolState} {rand : Nat}
    {hasCb : Bool} {ctx : Nat} {growOk : Bool} {p2 : PoolState} {errs : List ErrorKind}
    (h : pool_acquire A p rand hasCb ctx growOk = (AcquireResult.failed, p2, errs)) :
    errs ≠ [] ∧ errs.getLast? =
      some (if hasCb then ErrorKind.queueFull else ErrorKind.exhausted) := by
  unfold pool_acquire at h
  rcases htr : tryShards A p.sub_pools (probeOrder p.sub_pools.length rand)
    with ⟨r1, subs2, errs0⟩
  rw [htr] at h
  rcases r1 with _ | ⟨si, i⟩
  · dsimp only at h
    split at h
    · simp at h
    split at h
    · rename_i hcb1 hcb2
      rcases hgq : pool_grow_queue p p.queue_capacity growOk with ⟨b, p3, e3⟩
      rw [hgq] at h
      rcases b with _ | _
      · dsimp only at h
        simp only [Prod.mk.injEq] at h
        obtain ⟨-, -, he⟩ := h
        subst he
        rw [hcb2]
        refine ⟨by simp, ?_⟩
        rw [List.getLast?_concat]
        simp
      · dsimp only at h
        simp at h
    · rename_i hcb1 hcb2
      simp only [Prod.mk.injEq] at h
      obtain ⟨-, -, he⟩ := h
      subst he
      have hcb : hasCb = false := by simpa using hcb2
      rw [hcb]
      refine ⟨by simp, ?_⟩
      rw [List.getLast?_concat]
      simp
  · dsimp only at h
    simp at h

/-- C3 (amended): every failing operation invokes the error sink at least once
with the final report matching the failure cause; all operations except
`pool_acquire` report exactly once, with the single kind matching the
failure. -/
theorem failing_ops_error_reports :
    (∀ (A : Allocator) (mkObj : Nat → Nat → Nat) (ps sc : Nat) (errs : List ErrorKind),
      pool_create A mkObj ps sc = (none, errs) → errs = [ErrorKind.invalidSize]) ∧
    (∀ (A : Allocator) (p : PoolState) (rand : Nat) (hasCb : Bool) (ctx : Nat)
      (growOk : Bool) (p2 : PoolState) (errs : List ErrorKind),
      pool_acquire A p rand hasCb ctx growOk = (AcquireResult.failed, p2, errs) →
      errs ≠ [] ∧ errs.getLast? =
        some (if hasCb then ErrorKind.queueFull else ErrorKind.exhausted)) ∧
    (∀ (A : Allocator) (p : PoolState) (i j : Nat) (p2 : PoolState) (errs : List ErrorKind),
      pool_release A p i j = (false, p2, errs) → errs = [ErrorKind.invalidObject]) ∧
    (∀ (A : Allocator) (mkObj : Nat → Nat → Nat) (shardOk : Nat → Bool) (p : PoolState)
      (n : Nat) (p2 : PoolState) (errs : List ErrorKind),
      pool_grow A mkObj shardOk p n = (false, p2, errs) →
      errs = [ErrorKind.invalidSize] ∨ errs = [ErrorKind.allocFailed]) ∧
    (∀ (reallocOk : Nat → Bool) (p : PoolState) (k : Nat) (p2 : PoolState)
      (errs : List ErrorKind),
      pool_shrink reallocOk p k = (false, p2, errs) →
      errs = [ErrorKind.invalidSize] ∨ errs = [ErrorKind.insufficientUnused] ∨
        errs = [ErrorKind.allocFailed]) ∧
    (∀ (p : PoolState) (d : Nat) (growOk : Bool) (p2 : PoolState) (errs : List ErrorKind),
      pool_grow_queue p d growOk = (false, p2, errs) →
      errs = [ErrorKind.invalidSize] ∨ errs = [ErrorKind.allocFailed]) :=
  ⟨fun _ _ _ _ _ h => pool_create_fail_errors h,
   fun _ _ _ _ _ _ _ _ h => pool_acquire_failed_errors h,
   fun _ _ _ _ _ _ h => pool_release_fail_errors h,
   fun _ _ _ _ _ _ _ h => pool_grow_fail_errors h,
   fun _ _ _ _ _ h => pool_shrink_fail_errors h,
   fun _ _ _ _ _ h => pool_grow_queue_fail_errors h⟩

/-- Witness for C3 (amended) on the failing acquire of `poolInvalid`. -/
theorem failing_ops_error_reports_witness :
    ([ErrorKind.invalidObject, ErrorKind.exhausted] : List ErrorKind) ≠ [] ∧
    ([ErrorKind.invalidObject, ErrorKind.exhausted] : List ErrorKind).getLast? =
      some (if false then ErrorKind.queueFull else ErrorKind.exhausted) :=
  failing_ops_error_reports.2.1 rejectAlloc poolInvalid 0 false 0 false poolInvalid
    [ErrorKind.invalidObject, ErrorKind.exhausted] (by decide)

/-- C9: the shard-selection PRNG is the 64-bit LCG with multiplier
6364136223846793005 and increment 1442695040888963407 reduced modulo 2 ^ 64,
and each draw outputs the top 32 bits of the updated state (the shift by 32 is
division by 2 ^ 32, and the output fits in 32 bits). -/
theorem next_random_is_lcg_top_bits (s : Nat) :
    next_random_state s = (s * 6364136223846793005 + 1442695040888963407) % 2 ^ 64 ∧
    next_random_out s = next_random_state s / 2 ^ 32 ∧
    next_random_out s < 2 ^ 32 := by
  refine ⟨rfl, by simp [next_random_out, Nat.shiftRight_eq_div_pow], ?_⟩
  have h : next_random_state s < 2 ^ 64 := Nat.mod_lt _ (by norm_num)
  have h2 : next_random_state s < 2 ^ 32 * 2 ^ 32 := by
    have : (2 : Nat) ^ 32 * 2 ^ 32 = 2 ^ 64 := by norm_num
    omega
  simpa [next_random_out, Nat.shiftRight_eq_div_pow] using
    ((Nat.div_lt_iff_lt_mul (by norm_num : 0 < 2 ^ 32)).mpr h2)

/-- C1 counterexample: on `poolHandoff` (slot busy, one request parked) the
release pops the parked request before revalidating; the bumping hooks make
that revalidation fail, so the hand-off is skipped and the slot stays free —
but the popped request is gone from the queue, contradicting the claim that
the parked request remains queued. -/
theorem release_handoff_drops_parked_request :
    (pool_release bumpAlloc poolHandoff 0 0).1 = true ∧
    poolHandoff.queue = [{ hasCallback := true, ctx := 7 }] ∧
    (pool_release bumpAlloc poolHandoff 0 0).2.1.queue = [] ∧
    (pool_release bumpAlloc poolHandoff 0 0).2.1.sub_pools.map
      (fun sub => sub.slots.map (fun s => s.used)) = [[false]] := by
  decide

/-- C2 counterexample: on `pool42Busy1` (two shards of two slots, shard 1 fully
busy) `pool_shrink 2` fails with `InsufficientFree` on shard 1, yet shard 0 was
already shrunk: one object was destroyed and capacity dropped from 4 to 3,
contradicting the claim that no objects are destroyed. -/
theorem shrink_insufficient_destroys_earlier_shards :
    (pool_shrink (fun _ => true) pool42Busy1 2).1 = false ∧
    (pool_shrink (fun _ => true) pool42Busy1 2).2.2 = [ErrorKind.insufficientUnused] ∧
    pool_capacity pool42Busy1 = 4 ∧
    pool_capacity (pool_shrink (fun _ => true) pool42Busy1 2).2.1 = 3 := by
  decide

/-- C3 counterexample: a `pool_acquire` without callback on `poolInvalid`
(single free slot failing validation) returns failure after invoking the error
sink twice — once with `InvalidObject` during the scan and once with
`Exhausted` — contradicting the exactly-once claim. -/
theorem acquire_failure_reports_twice :
    (pool_acquire rejectAlloc poolInvalid 0 false 0 false).1 = AcquireResult.failed ∧
    (pool_acquire rejectAlloc poolInvalid 0 false 0 false).2.2 =
      [ErrorKind.invalidObject, ErrorKind.exhausted] := by
  decide

/-- C8 counterexample: a successful `pool_shrink 2` on `pool42` lowers the
`total_objects_allocated` reported by `pool_stats` from 4 to 2, contradicting
the claim that the counter never decreases. -/
theorem stats_total_allocated_decreases_on_shrink :
    (pool_stats (step idAlloc pool42 (Op.shrink 2 (fun _ => true)))).total_objects_allocated <
    (pool_stats pool42).total_objects_allocated := by
  decide

/-- Per-shard creation size is bounded by the requested pool size. -/
theorem subSize_le {ps sc i : Nat} (hps : 1 ≤ ps) (hsc : 1 ≤ sc) :
    subSize ps sc i ≤ ps := by
  unfold subSize share
  dsimp only
  have h2 : sc * (ps / sc) + ps % sc = ps := Nat.div_add_mod ps sc
  have h3 : ps / sc ≤ sc * (ps / sc) := Nat.le_mul_of_pos_left _ hsc
  generalize hgq : ps / sc = q at h2 h3 ⊢
  generalize hgr : ps % sc = r at h2 ⊢
  generalize hgm : sc * q = m at h2 h3
  by_cases h : i < r
  · rw [if_pos h, if_neg (by omega)]
    omega
  · rw [if_neg h]
    by_cases hcase : q + 0 = 0 ∧ 0 < ps
    · rw [if_pos hcase]
      omega
    · rw [if_neg hcase]
      omega

/-- Total creation size over all shards is the maximum of the requested size
and the shard count. -/
theorem subSize_sum {ps sc : Nat} (hps : 1 ≤ ps) (hsc : 1 ≤ sc) :
    ((List.range sc).map (fun i => subSize ps sc i)).sum = max ps sc := by
  by_cases hle : sc ≤ ps
  · have hq : 1 ≤ ps / sc := (Nat.one_le_div_iff (by omega)).mpr hle
    have h1 : ((List.range sc).map (fun i => subSize ps sc i)) =
        ((List.range sc).map (fun i => share (ps / sc) (ps % sc) i)) := by
      apply List.map_congr_left
      intro i _
      unfold subSize
      dsimp only
      rw [if_neg ?hcond]
      case hcond =>
        have hpos : 1 ≤ share (ps / sc) (ps % sc) i := by
          unfold share
          split <;> omega
        omega
    rw [h1, share_range_sum]
    have hrem : ps % sc < sc := Nat.mod_lt _ (by omega)
    rw [Nat.min_eq_left (le_of_lt hrem), Nat.max_eq_left hle]
    exact Nat.div_add_mod ps sc
  · push_neg at hle
    have h1 : ((List.range sc).map (fun i => subSize ps sc i)) =
        ((List.range sc).map (fun _ => 1)) := by
      apply List.map_congr_left
      intro i hi
      unfold subSize share
      dsimp only
      rw [Nat.div_eq_of_lt hle, Nat.mod_eq_of_lt hle]
      by_cases h : i < ps
      · rw [if_pos h, if_neg (by omega)]
      · rw [if_neg h, if_pos (by omega)]
    rw [h1, Nat.max_eq_right (le_of_lt hle)]
    simp

/-- C10: a successful `pool_create` gives each sub-pool at least one slot, so
`pool_capacity` returns the maximum of `pool_size` and `sub_pool_count`; in
particular for `pool_size < sub_pool_count` the capacity exceeds the request
while the `total_objects_allocated` statistic still reports `pool_size`. -/
theorem create_capacity_max (A : Allocator) (mkObj : Nat → Nat → Nat) (ps sc : Nat)
    (hps : 1 ≤ ps) (hsc : 1 ≤ sc) (hsc2 : sc ≤ 0xFFFF) (hps2 : ps ≤ SUB_POOL_SIZE_LIMIT) :
    ∃ p, (pool_create A mkObj ps sc).1 = some p ∧
      pool_capacity p = max ps sc ∧
      (pool_stats p).total_objects_allocated = ps := by
  unfold pool_create
  rw [if_neg (by omega), if_neg (by omega), if_neg ?hany]
  case hany =>
    intro hx
    obtain ⟨i, hi, hdec⟩ := List.any_eq_true.mp hx
    rw [decide_eq_true_eq] at hdec
    have hbound : subSize ps sc i ≤ ps := subSize_le hps hsc
    omega
  dsimp only
  refine ⟨_, rfl, ?_, rfl⟩
  show (((List.range sc).map (fun i => mkSubPool A (mkObj i) (subSize ps sc i))).map
    (fun sub => sub.slots.length)).sum = max ps sc
  rw [List.map_map]
  have h1 : ((fun sub : SubPool => sub.slots.length) ∘
      fun i => mkSubPool A (mkObj i) (subSize ps sc i)) = fun i => subSize ps sc i := by
    funext i
    show (newSlots A (mkObj i) 0 (subSize ps sc i)).length = _
    unfold newSlots
    rw [List.length_map, List.length_range]
  rw [h1]
  exact subSize_sum hps hsc

/-- Witness for C10 with two objects over four shards: capacity 4 exceeds the
requested size 2 while the statistic still reports 2. -/
theorem create_capacity_max_witness :
    pool_capacity pool24 = max 2 4 ∧
    (pool_stats pool24).total_objects_allocated = 2 := by
  obtain ⟨p, hp, hcap, htot⟩ := create_capacity_max idAlloc zeroObj 2 4
    (by norm_num) (by norm_num) (by norm_num)
    (by norm_num [SUB_POOL_SIZE_LIMIT])
  have hpool : pool24 = p := by
    unfold pool24 createdPool
    rw [hp]
  rw [hpool]
  exact ⟨hcap, htot⟩

end ObjectPool
